import Mathlib

/-!
Verification of the unhook feed-to-EPUB pipeline.

This file gives a shallow embedding, in Lean 4, of the pure core of the
unhook repository (src/unhook/feed.py, post_content.py, epub_service.py,
epub_builder.py, email_content.py) and proves the stated properties of
the specification against it.

Modelling conventions:
- Python dictionaries produced by the Bluesky API are modelled by
  structures whose fields are the keys the code reads; a missing key is
  an Option that is none.  A missing sub-dictionary (the code reads it
  with .get(k, dict()) or guards it with isinstance) is modelled by a
  record whose fields are all none.
- Python truthiness on optional strings (None and the empty string are
  falsy) is modelled by the pyTruthy / pyOrStr helpers; the pattern
  (x or y) on optional ints (0 is falsy) by pyOrInt.
- Python str values are Lean String; len(str) counts code points in
  both languages.  Byte-offset manipulation in _apply_link_facets is
  modelled on the UTF-8 byte list of the text (List Nat), with an
  executable UTF-8 encoder/decoder defined below; the decoder follows
  decode(errors="replace") by emitting U+FFFD for invalid sequences.
- Python dict insertion keeps the position of an existing key and
  overwrites its value; dictInsert below does the same on association
  lists, and dictGet is keyed lookup.
- Timestamps: record.created_at is kept as the raw ISO string exactly
  as in the code; parse_timestamp (a thin wrapper over the external
  datetime.fromisoformat, which the spec treats as a black box) is
  modelled by an executable parser for the ISO-8601 shapes the Bluesky
  API produces, returning microseconds since the epoch; a string the
  library would reject is mapped to 0 (the Python code would raise
  instead, producing no result list at all).
- The while loops of fetch_feed_posts and the leaf-to-root chain walk
  of find_self_threads are given explicit fuel; on inputs where the
  Python loop terminates the fuelled function computes the same value,
  and the properties proved are loop invariants that hold for every
  fuel.  Python set iteration order (for leaves) is unspecified; the
  model iterates parent-map insertion order, and no proved property
  depends on the order of the returned threads.
-/

namespace Unhook

/-! ### Python truthiness helpers -/

/-- Truthiness of an optional string: None and the empty string are falsy. -/
def pyTruthy : Option String → Bool
  | none => false
  | some s => s ≠ ""

/-- Value of (x or y) for optional strings (None if both are falsy and y is None). -/
def pyOrStrOpt : Option String → Option String → Option String
  | some s, y => if s = "" then y else some s
  | none, y => y

/-- Value of (x or d) for an optional string and a string default. -/
def pyOrStr : Option String → String → String
  | some s, d => if s = "" then d else s
  | none, d => d

/-- Coalesced truthy value: some s when truthy, none otherwise. -/
def pyStrVal : Option String → Option String
  | none => none
  | some s => if s = "" then none else some s

/-- Value of coerce_int(x or y) for optional ints: 0 is falsy, coerce_int
of an int is the int itself and of None is None. -/
def pyOrInt : Option Int → Option Int → Option Int
  | some v, y => if v = 0 then y else some v
  | none, y => y

/-! ### Association lists as Python dicts -/

/-- Insert into a dict: an existing key keeps its position and gets the new
value, a new key is appended (Python dict assignment). -/
def dictInsert {α : Type} (d : List (String × α)) (k : String) (v : α) :
    List (String × α) :=
  match d with
  | [] => [(k, v)]
  | (k', v') :: rest =>
      if k' = k then (k, v) :: rest else (k', v') :: dictInsert rest k v

/-- Keyed lookup (dict.get). -/
def dictGet {α : Type} (d : List (String × α)) (k : String) : Option α :=
  (d.find? (fun p => p.1 == k)).map (·.2)

/-! ### Data model of raw feed posts -/

/-- An author dictionary: post.author with keys did and handle. -/
structure Author where
  did : Option String
  handle : Option String
  deriving DecidableEq, Repr

/-- A reply.parent.ref dictionary. -/
structure RefObj where
  uri : Option String
  deriving DecidableEq, Repr

/-- A reply.parent dictionary. -/
structure ParentObj where
  uri : Option String
  ref : Option RefObj
  deriving DecidableEq, Repr

/-- A record.reply dictionary. -/
structure ReplyObj where
  parent : Option ParentObj
  deriving DecidableEq, Repr

/-- A facet index dictionary; the API serialises the byte offsets either in
camelCase (byteStart/byteEnd) or in snake_case (byte_start/byte_end). -/
structure FacetIndex where
  byteStart : Option Int
  byte_start : Option Int
  byteEnd : Option Int
  byte_end : Option Int
  deriving DecidableEq, Repr

/-- A facet feature; ftype models the "$type" key and py_type the
"py_type" key. -/
structure Feature where
  ftype : Option String
  py_type : Option String
  uri : Option String
  deriving DecidableEq, Repr

/-- A facet dictionary. -/
structure Facet where
  index : Option FacetIndex
  features : List Feature
  deriving DecidableEq, Repr

/-- A value dictionary of a quoted record view (value.text). -/
structure ValueObj where
  text : Option String
  deriving DecidableEq, Repr

/-- A quoted-post record view: "$type", author and value. -/
structure RecordView where
  vtype : Option String
  author : Option Author
  value : Option ValueObj
  deriving DecidableEq, Repr

/-- An embed.record dictionary: its own view fields plus the possibly
nested record.record view. -/
structure EmbedRecordObj where
  vtype : Option String
  author : Option Author
  value : Option ValueObj
  record : Option RecordView
  deriving DecidableEq, Repr

/-- An embedded image dictionary with fullsize and thumb URLs. -/
structure ImageObj where
  fullsize : Option String
  thumb : Option String
  deriving DecidableEq, Repr

/-- A post.embed dictionary. -/
structure EmbedObj where
  images : Option (List ImageObj)
  record : Option EmbedRecordObj
  deriving DecidableEq, Repr

/-- A post.record dictionary; rtype models "$type" and py_type "py_type". -/
structure RecordObj where
  rtype : Option String
  py_type : Option String
  text : Option String
  created_at : Option String
  reply : Option ReplyObj
  facets : Option (List Facet)
  deriving DecidableEq, Repr

/-- The inner post dictionary of a feed item. -/
structure PostObj where
  uri : Option String
  cid : Option String
  author : Author
  record : RecordObj
  embed : Option EmbedObj
  deriving DecidableEq, Repr

/-- A reason dictionary marking reposts; byUser models the "by" key. -/
structure ReasonObj where
  rtype : Option String
  py_type : Option String
  byUser : Option Author
  deriving DecidableEq, Repr

/-- A feed item as returned by the timeline API: the top-level dictionary
with keys post and (for reposts) reason. -/
structure FeedItem where
  post : PostObj
  reason : Option ReasonObj
  deriving DecidableEq, Repr

/-! ### feed.py: author identity and reply parents -/

/-- Embeds _get_author_identifier: author.get("did") or author.get("handle"). -/
def _get_author_identifier (item : FeedItem) : Option String :=
  pyOrStrOpt item.post.author.did item.post.author.handle

/-- Embeds _extract_reply_parent_uri: parent.uri if truthy, else
parent.ref.uri if truthy, else None. -/
def _extract_reply_parent_uri (record : RecordObj) : Option String :=
  match record.reply with
  | none => none
  | some reply =>
      match reply.parent with
      | none => none
      | some parent =>
          match pyStrVal parent.uri with
          | some u => some u
          | none =>
              match parent.ref with
              | none => none
              | some ref => pyStrVal ref.uri

/-! ### post_content.py: dedupe_posts -/

/-- The loop of dedupe_posts: seen is the set of URIs already kept. -/
def dedupeGo (seen : List String) : List FeedItem → List FeedItem
  | [] => []
  | p :: rest =>
      match pyStrVal p.post.uri with
      | some u =>
          if seen.contains u then dedupeGo seen rest
          else p :: dedupeGo (u :: seen) rest
      | none => dedupeGo seen rest

/-- Embeds dedupe_posts: posts with duplicate URIs removed, preserving
order; a post whose uri is missing or empty is never kept. -/
def dedupe_posts (posts : List FeedItem) : List FeedItem :=
  dedupeGo [] posts

/-! ### feed.py: find_self_threads -/

/-- The posts_by_uri dict of find_self_threads: every post with a truthy
uri, keyed by its uri; a later post with the same uri overwrites. -/
def postsByUri (posts : List FeedItem) : List (String × FeedItem) :=
  posts.foldl
    (fun d p =>
      match pyStrVal p.post.uri with
      | some u => dictInsert d u p
      | none => d)
    []

/-- The parent_map dict of find_self_threads: child uri mapped to parent
uri, only when the parent is present locally and the author identifiers
match. -/
def parentMap (posts : List FeedItem) (pbu : List (String × FeedItem)) :
    List (String × String) :=
  posts.foldl
    (fun d p =>
      match pyStrVal p.post.uri with
      | none => d
      | some u =>
          match _extract_reply_parent_uri p.post.record with
          | none => d
          | some pu =>
              match dictGet pbu pu with
              | none => d
              | some parentPost =>
                  if _get_author_identifier parentPost = _get_author_identifier p
                  then dictInsert d u pu
                  else d)
    []

/-- The leaf-to-root while loop of find_self_threads, with explicit fuel.
On a cyclic parent map the Python loop would not terminate; with fuel
(number of edges + 1) the walk covers every acyclic chain exactly. -/
def buildChain (pbu : List (String × FeedItem)) (pm : List (String × String)) :
    Nat → Option String → List FeedItem
  | _, none => []
  | 0, some _ => []
  | fuel + 1, some u =>
      match dictGet pbu u with
      | none => []
      | some p => p :: buildChain pbu pm fuel (pyStrVal (dictGet pm u))

/-- Embeds find_self_threads: author-consistent reply chains of two or
more posts, each listed root first.  Python iterates the set of children
in unspecified set order; the model iterates parent-map insertion order
(same set of leaves). -/
def find_self_threads (posts : List FeedItem) : List (List FeedItem) :=
  let pbu := postsByUri posts
  let pm := parentMap posts pbu
  let children := pm.map (·.1)
  let parents := pm.map (·.2)
  let leaves := children.filter (fun u => ¬ parents.contains u)
  leaves.filterMap
    (fun leaf =>
      let chain := buildChain pbu pm (pm.length + 1) (some leaf)
      if chain.length > 1 then some chain.reverse else none)

/-! ### feed.py: consolidate_threads_to_posts -/

/-- Strip of Python str.strip() restricted to ASCII whitespace
(space, tab, newline, carriage return, vertical tab, form feed). -/
def isPySpace (c : Char) : Bool :=
  c = ' ' ∨ c = '\t' ∨ c = '\n' ∨ c = '\r' ∨ c = '\x0b' ∨ c = '\x0c'

/-- Python str.strip(): whitespace removed from both ends. -/
def pyStrip (s : String) : String :=
  ⟨((s.data.dropWhile isPySpace).reverse.dropWhile isPySpace).reverse⟩

/-- The stripped, non-empty body parts of a thread, in chain order. -/
def threadBodyParts (thread : List FeedItem) : List String :=
  thread.filterMap
    (fun e =>
      let t := pyStrip (pyOrStr e.post.record.text "")
      if t = "" then none else some t)

/-- The images collected from a thread: for each embedded image dict the
fullsize URL, or else the thumb URL, when truthy. -/
def threadImages (thread : List FeedItem) : List ImageObj :=
  thread.foldl
    (fun acc e =>
      match e.post.embed with
      | none => acc
      | some embed =>
          acc ++
            (embed.images.getD []).filterMap
              (fun image =>
                match pyOrStrOpt image.fullsize image.thumb with
                | some url =>
                    if url = "" then none
                    else some { fullsize := some url, thumb := none }
                | none => none))
    []

/-- The synthetic post a non-empty thread is consolidated into. -/
def synthPost (root : FeedItem) (thread : List FeedItem) : FeedItem :=
  { post :=
      { uri := some (pyOrStr root.post.uri "" ++ "#thread")
        cid := some (pyOrStr root.post.cid "" ++ "-thread")
        author := root.post.author
        record :=
          { rtype := none
            py_type := none
            text := some (String.intercalate "\n\n" (threadBodyParts thread))
            created_at := root.post.record.created_at
            reply := none
            facets := none }
        embed :=
          if threadImages thread = [] then some { images := none, record := none }
          else some { images := some (threadImages thread), record := none } }
    reason := none }

/-- Embeds consolidate_threads_to_posts: each non-empty thread becomes
one synthetic post with merged text and images. -/
def consolidate_threads_to_posts (threads : List (List FeedItem)) : List FeedItem :=
  threads.foldl
    (fun acc thread =>
      match thread with
      | [] => acc
      | root :: _ => acc ++ [synthPost root thread])
    []

/-! ### UTF-8 encoding and decoding

text.encode("utf-8") and bytes.decode("utf-8", errors="replace") are
modelled executably on byte lists. -/

/-- UTF-8 encoding of one character. -/
def utf8EncodeChar (c : Char) : List Nat :=
  let n := c.toNat
  if n < 0x80 then [n]
  else if n < 0x800 then [0xC0 + n / 64, 0x80 + n % 64]
  else if n < 0x10000 then
    [0xE0 + n / 4096, 0x80 + n / 64 % 64, 0x80 + n % 64]
  else
    [0xF0 + n / 262144, 0x80 + n / 4096 % 64, 0x80 + n / 64 % 64, 0x80 + n % 64]

/-- UTF-8 encoding of a string, as a list of byte values. -/
def utf8Encode (s : String) : List Nat :=
  s.data.foldr (fun c acc => utf8EncodeChar c ++ acc) []

/-- Whether a byte is a UTF-8 continuation byte. -/
def isContByte (b : Nat) : Bool := 0x80 ≤ b ∧ b < 0xC0

/-- UTF-8 decoding with replacement: an invalid byte yields U+FFFD and one
byte is consumed (Python consumes whole maximal invalid subsequences; the
difference only affects how many U+FFFD appear for invalid input). -/
def utf8DecodeGo : Nat → List Nat → List Char
  | 0, _ => []
  | _, [] => []
  | fuel + 1, b :: rest =>
      if b < 0x80 then Char.ofNat b :: utf8DecodeGo fuel rest
      else if b < 0xC2 then '�' :: utf8DecodeGo fuel rest
      else if b < 0xE0 then
        match rest with
        | b2 :: rest2 =>
            if isContByte b2 then
              Char.ofNat ((b - 0xC0) * 64 + (b2 - 0x80)) :: utf8DecodeGo fuel rest2
            else '�' :: utf8DecodeGo fuel rest
        | [] => ['�']
      else if b < 0xF0 then
        match rest with
        | b2 :: b3 :: rest3 =>
            if isContByte b2 ∧ isContByte b3 ∧
               (b ≠ 0xE0 ∨ 0xA0 ≤ b2) ∧ (b ≠ 0xED ∨ b2 < 0xA0) then
              Char.ofNat ((b - 0xE0) * 4096 + (b2 - 0x80) * 64 + (b3 - 0x80)) ::
                utf8DecodeGo fuel rest3
            else '�' :: utf8DecodeGo fuel rest
        | _ => '�' :: utf8DecodeGo fuel rest
      else if b < 0xF5 then
        match rest with
        | b2 :: b3 :: b4 :: rest4 =>
            if isContByte b2 ∧ isContByte b3 ∧ isContByte b4 ∧
               (b ≠ 0xF0 ∨ 0x90 ≤ b2) ∧ (b ≠ 0xF4 ∨ b2 < 0x90) then
              Char.ofNat ((b - 0xF0) * 262144 + (b2 - 0x80) * 4096 +
                  (b3 - 0x80) * 64 + (b4 - 0x80)) ::
                utf8DecodeGo fuel rest4
            else '�' :: utf8DecodeGo fuel rest
        | _ => '�' :: utf8DecodeGo fuel rest
      else '�' :: utf8DecodeGo fuel rest

/-- bytes.decode("utf-8", errors="replace"). -/
def utf8DecodeReplace (bs : List Nat) : String :=
  ⟨utf8DecodeGo bs.length bs⟩

/-! ### post_content.py: _apply_link_facets -/

/-- Whether a feature is a link feature with a string uri:
(feature.get("$type") or feature.get("py_type")) equals the link facet
type and the uri value is a string. -/
def isLinkFeature (f : Feature) : Bool :=
  pyOrStrOpt f.ftype f.py_type = some "app.bsky.richtext.facet#link" ∧ f.uri.isSome

/-- The validated replacement triple (byte_start, byte_end, uri) of one
facet, or none when the facet is skipped: missing index, falsy-or-missing
byte offsets, out-of-range or inverted span, or no link feature. -/
def facetRepl (byteLen : Nat) (facet : Facet) : Option (Int × Int × String) :=
  match facet.index with
  | none => none
  | some index =>
      match pyOrInt index.byteStart index.byte_start,
            pyOrInt index.byteEnd index.byte_end with
      | some s, some e =>
          if s < 0 ∨ e > (byteLen : Int) ∨ s ≥ e then none
          else
            match (facet.features.find? isLinkFeature).bind (·.uri) with
            | some uri => some (s, e, uri)
            | none => none
      | _, _ => none

/-- The validated replacement list, in facet order. -/
def collectRepls (byteLen : Nat) (facets : List Facet) : List (Int × Int × String) :=
  facets.filterMap (facetRepl byteLen)

/-- Python string < : lexicographic by code point. -/
def strLtList : List Char → List Char → Bool
  | [], [] => false
  | [], _ :: _ => true
  | _ :: _, [] => false
  | a :: as, b :: bs =>
      if a.toNat < b.toNat then true
      else if b.toNat < a.toNat then false
      else strLtList as bs

/-- Python string < on strings. -/
def pyStrLt (a b : String) : Bool := strLtList a.data b.data

/-- Python string ≤ on strings. -/
def pyStrLe (a b : String) : Bool := pyStrLt a b || a == b

/-- Python tuple ≤ on (byte_start, byte_end, uri) triples: lexicographic
with ints compared as ints and strings by code point. -/
def leRepl (a b : Int × Int × String) : Bool :=
  if a.1 = b.1 then
    if a.2.1 = b.2.1 then pyStrLe a.2.2 b.2.2
    else decide (a.2.1 < b.2.1)
  else decide (a.1 < b.1)

/-- Python tuple ≤ on numbered (start, end, uri, label) tuples. -/
def leNum (a b : Int × Int × String × String) : Bool :=
  if a.1 = b.1 then
    if a.2.1 = b.2.1 then
      if a.2.2.1 = b.2.2.1 then pyStrLe a.2.2.2 b.2.2.2
      else pyStrLt a.2.2.1 b.2.2.1
    else decide (a.2.1 < b.2.1)
  else decide (a.1 < b.1)

/-- The ascending tuple order used by sorted(replacements). -/
def replLe (a b : Int × Int × String) : Prop := leRepl a b = true

/-- The descending tuple order used by sorted(numbered, reverse=True):
stable descending sort keeps the original order of equal elements, which
the non-strict flipped comparator provides. -/
def numGe (a b : Int × Int × String × String) : Prop := leNum b a = true

instance : DecidableRel replLe := fun a b => instDecidableEqBool (leRepl a b) true

instance : DecidableRel numGe := fun a b => instDecidableEqBool (leNum b a) true

/-- enumerate(.., start=i): labels linkI, linkI+1, ... appended in order. -/
def labelFrom : Nat → List (Int × Int × String) → List (Int × Int × String × String)
  | _, [] => []
  | i, (s, e, u) :: rest => (s, e, u, "link" ++ toString i) :: labelFrom (i + 1) rest

/-- The encoded bytes of the markdown replacement text for one link. -/
def linkMarkdownBytes (label uri : String) : List Nat :=
  utf8Encode ("[" ++ label ++ "](" ++ uri ++ ")")

/-- The replacement loop: each tuple splices its markdown text over the
byte range, applied in the given (descending) order. -/
def spliceAll (byteText : List Nat) (ordered : List (Int × Int × String × String)) :
    List Nat :=
  ordered.foldl
    (fun bt r => bt.take r.1.toNat ++ linkMarkdownBytes r.2.2.2 r.2.2.1 ++ bt.drop r.2.1.toNat)
    byteText

/-- Embeds the byte-level body of _apply_link_facets: validated spans are
sorted, numbered link1.. in ascending tuple order, then replaced from the
end of the byte string backward (descending stable sort). -/
def applyLinkFacetsBytes (byteText : List Nat) (facets : List Facet) : List Nat :=
  if byteText = [] ∨ facets = [] then byteText
  else
    let numbered := labelFrom 1 ((collectRepls byteText.length facets).insertionSort replLe)
    let ordered := numbered.insertionSort numGe
    spliceAll byteText ordered

/-- Embeds _apply_link_facets: text ranges replaced with numbered markdown
links based on facets. -/
def _apply_link_facets (text : String) (facets : List Facet) : String :=
  if text = "" ∨ facets = [] then text
  else utf8DecodeReplace (applyLinkFacetsBytes (utf8Encode text) facets)

/-! ### feed.py: parse_timestamp

parse_timestamp delegates to datetime.fromisoformat after replacing "Z"
with "+00:00"; fromisoformat is an external library routine, modelled by
an executable parser of the ISO-8601 timestamp shapes the Bluesky API
produces (date, optional time with fraction, optional UTC offset),
returning microseconds since the Unix epoch.  A string the library would
reject raises ValueError in Python; the model maps it to 0.  Only the
ordering of parsed values is ever relied on by the code. -/

/-- Python str.replace: every non-overlapping occurrence, left to right. -/
def replaceAllGo (pat rep : List Char) : Nat → List Char → List Char
  | 0, cs => cs
  | fuel + 1, cs =>
      if pat.isPrefixOf cs ∧ pat ≠ [] then
        rep ++ replaceAllGo pat rep fuel (cs.drop pat.length)
      else
        match cs with
        | [] => []
        | c :: rest => c :: replaceAllGo pat rep fuel rest

/-- Python str.replace on strings (with a non-empty pattern). -/
def pyReplace (s pat rep : String) : String :=
  ⟨replaceAllGo pat.data rep.data s.data.length s.data⟩

/-- One decimal digit. -/
def digitVal (c : Char) : Option Nat :=
  if '0' ≤ c ∧ c ≤ '9' then some (c.toNat - 48) else none

/-- Exactly n leading digits as a number, with the rest of the input. -/
def parseDigits : Nat → List Char → Option (Nat × List Char)
  | 0, cs => some (0, cs)
  | _ + 1, [] => none
  | n + 1, c :: cs =>
      match digitVal c with
      | none => none
      | some d =>
          match parseDigits n cs with
          | none => none
          | some (v, rest) => some (d * 10 ^ n + v, rest)

/-- A literal character. -/
def parseLit (lit : Char) : List Char → Option (List Char)
  | [] => none
  | c :: cs => if c = lit then some cs else none

/-- Days from the civil date to the Unix epoch (proleptic Gregorian). -/
def daysFromCivil (y m d : Int) : Int :=
  let y' := if m ≤ 2 then y - 1 else y
  let era := (if 0 ≤ y' then y' else y' - 399) / 400
  let yoe := y' - era * 400
  let mp := (m + 9) % 12
  let doy := (153 * mp + 2) / 5 + d - 1
  let doe := yoe * 365 + yoe / 4 - yoe / 100 + doy
  era * 146097 + doe - 719468

/-- Up to six fractional-second digits as microseconds. -/
def parseFraction : Nat → Nat → Nat → List Char → Nat × List Char
  | 0, acc, _, cs => (acc, cs)
  | _ + 1, acc, scale, [] => (acc * scale, [])
  | n + 1, acc, scale, c :: cs =>
      match digitVal c with
      | none => (acc * scale, c :: cs)
      | some d => parseFraction n (acc * 10 + d) (scale / 10) cs

/-- The optional time-of-day and offset part, in microseconds. -/
def parseTimePart (cs : List Char) : Option Int :=
  match cs with
  | [] => some 0
  | _ :: rest1 =>
      match parseDigits 2 rest1 with
      | none => none
      | some (hh, rest2) =>
          match parseLit ':' rest2 with
          | none => none
          | some rest3 =>
              match parseDigits 2 rest3 with
              | none => none
              | some (mi, rest4) =>
                  let (ss, frac, rest5) :=
                    match parseLit ':' rest4 with
                    | none => (0, 0, rest4)
                    | some rest4a =>
                        match parseDigits 2 rest4a with
                        | none => (0, 0, rest4)
                        | some (ss, rest4b) =>
                            match parseLit '.' rest4b with
                            | none => (ss, 0, rest4b)
                            | some rest4c =>
                                let (f, rest4d) := parseFraction 6 0 1000000 rest4c
                                (ss, f, rest4d)
                  let base : Int :=
                    ((hh : Int) * 3600 + (mi : Int) * 60 + (ss : Int)) * 1000000 + (frac : Int)
                  match rest5 with
                  | [] => some base
                  | sign :: rest6 =>
                      if sign = '+' ∨ sign = '-' then
                        match parseDigits 2 rest6 with
                        | none => none
                        | some (oh, rest7) =>
                            match parseLit ':' rest7 with
                            | none => none
                            | some rest8 =>
                                match parseDigits 2 rest8 with
                                | none => none
                                | some (om, rest9) =>
                                    if rest9 = [] then
                                      let off : Int := ((oh : Int) * 60 + (om : Int)) * 60000000
                                      some (if sign = '+' then base - off else base + off)
                                    else none
                      else none

/-- ISO-8601 date-time to microseconds since the epoch. -/
def isoToMicros (cs : List Char) : Option Int :=
  match parseDigits 4 cs with
  | none => none
  | some (y, rest1) =>
      match parseLit '-' rest1 with
      | none => none
      | some rest2 =>
          match parseDigits 2 rest2 with
          | none => none
          | some (m, rest3) =>
              match parseLit '-' rest3 with
              | none => none
              | some rest4 =>
                  match parseDigits 2 rest4 with
                  | none => none
                  | some (d, rest5) =>
                      match parseTimePart rest5 with
                      | none => none
                      | some t =>
                          some (daysFromCivil (y : Int) (m : Int) (d : Int) * 86400000000 + t)

/-- Embeds parse_timestamp: fromisoformat(iso_string.replace("Z", "+00:00")),
as microseconds since the epoch (0 for strings the library rejects). -/
def parse_timestamp (iso_string : String) : Int :=
  (isoToMicros (pyReplace iso_string "Z" "+00:00").data).getD 0

/-! ### post_content.py: map_posts_to_content -/

/-- A PostContent record; published is the parsed timestamp in
microseconds since the epoch. -/
structure PostContent where
  title : String
  author : String
  published : Int
  body : String
  image_urls : List String
  reposted_by : Option String
  deriving DecidableEq, Repr

/-- Embeds _extract_image_urls: fullsize URL, else thumb URL, when truthy. -/
def _extract_image_urls (post : PostObj) : List String :=
  match post.embed with
  | none => []
  | some embed =>
      (embed.images.getD []).filterMap
        (fun image =>
          match pyStrVal image.fullsize with
          | some u => some u
          | none => pyStrVal image.thumb)

/-- Embeds _is_view_record for the nested record view. -/
def isViewRecordV (candidate : RecordView) : Bool :=
  candidate.author.isSome ∧ candidate.value.isSome

/-- Embeds _is_view_record for the embed.record dictionary itself. -/
def isViewRecordE (candidate : EmbedRecordObj) : Bool :=
  candidate.author.isSome ∧ candidate.value.isSome

/-- Embeds _extract_record_view: embed.record when it looks like a view,
else the nested embed.record.record when that does. -/
def _extract_record_view (embed : EmbedObj) : Option RecordView :=
  match embed.record with
  | none => none
  | some record =>
      if isViewRecordE record then
        some { vtype := record.vtype, author := record.author, value := record.value }
      else
        match record.record with
        | none => none
        | some nested => if isViewRecordV nested then some nested else none

/-- Embeds _extract_quote_content: author handle/DID and text of a quoted
post, none for blocked, not-found or detached views. -/
def _extract_quote_content (post : PostObj) : Option String × Option String :=
  match post.embed with
  | none => (none, none)
  | some embed =>
      match _extract_record_view embed with
      | none => (none, none)
      | some rv =>
          if rv.vtype = some "app.bsky.embed.record#viewBlocked" ∨
             rv.vtype = some "app.bsky.embed.record#viewNotFound" ∨
             rv.vtype = some "app.bsky.embed.record#viewDetached" then (none, none)
          else
            let author := rv.author.getD { did := none, handle := none }
            let value := rv.value.getD { text := none }
            (pyOrStrOpt author.handle author.did, value.text)

/-- Python string slicing s[:n] (by code points, as Python). -/
def pyTake (n : Nat) (s : String) : String := ⟨s.data.take n⟩

/-- body.split("\n", 1)[0]: the text before the first newline. -/
def firstLine (s : String) : String := ⟨s.data.takeWhile (fun c => c ≠ '\n')⟩

/-- The conversion of one raw post into a PostContent; now is the value of
datetime.now(UTC), passed explicitly. -/
def mapPostToContent (now : Int) (raw : FeedItem) : PostContent :=
  let post_data := raw.post
  let author_data := post_data.author
  let record := post_data.record
  let body0 := pyStrip (record.text.getD "")
  let body1 :=
    match record.facets with
    | some facets => _apply_link_facets body0 facets
    | none => body0
  let quote := _extract_quote_content post_data
  let body2 :=
    match pyStrVal quote.2 with
    | none => body1
    | some qt =>
        let label := pyOrStr quote.1 "quoted post"
        let quoted_section := "Quoted from " ++ label ++ ":\n" ++ qt
        if body1 = "" then quoted_section else body1 ++ "\n\n" ++ quoted_section
  let published :=
    match pyStrVal record.created_at with
    | some s => parse_timestamp s
    | none => now
  let title0 := if body2 = "" then "Untitled" else pyTake 60 (firstLine body2)
  let title := if title0 = "" then "Untitled" else title0
  { title := title
    author := pyOrStr author_data.handle (author_data.did.getD "unknown")
    published := published
    body := body2
    image_urls := _extract_image_urls post_data
    reposted_by := none }

/-- Embeds map_posts_to_content. -/
def map_posts_to_content (now : Int) (posts : List FeedItem) : List PostContent :=
  posts.map (mapPostToContent now)

/-! ### constants.py and epub_service.py -/

/-- Substring containment (Python "needle in haystack"). -/
def containsSubGo (needle : List Char) : Nat → List Char → Bool
  | 0, cs => needle.isPrefixOf cs
  | fuel + 1, cs =>
      needle.isPrefixOf cs ||
        match cs with
        | [] => false
        | _ :: rest => containsSubGo needle fuel rest

/-- Python "needle in haystack" on strings. -/
def strContains (hay needle : String) : Bool :=
  containsSubGo needle.data hay.data.length hay.data

/-- Embeds get_type_field on the reason dictionary (a non-dict reason is
replaced by the empty dict first). -/
def getTypeFieldReason (reason : Option ReasonObj) : String :=
  match reason with
  | none => ""
  | some r => pyOrStr (pyOrStrOpt r.rtype r.py_type) ""

/-- Embeds get_type_field on a record dictionary. -/
def getTypeFieldRecord (record : RecordObj) : String :=
  pyOrStr (pyOrStrOpt record.rtype record.py_type) ""

/-- Embeds _is_repost: BSKY_REASON_REPOST occurs in the reason type, or
the record type equals BSKY_REPOST_TYPE. -/
def _is_repost (item : FeedItem) : Bool :=
  if strContains (getTypeFieldReason item.reason) "reasonRepost" then true
  else getTypeFieldRecord item.post.record = "app.bsky.feed.repost"

/-- Embeds _filter_top_level_posts: reposts and replies excluded. -/
def _filter_top_level_posts (posts : List FeedItem) : List FeedItem :=
  posts.filter (fun p => ¬ _is_repost p ∧ p.post.record.reply = none)

/-- Embeds _filter_by_length: posts whose bodies are at least min_length
characters long. -/
def _filter_by_length (posts : List PostContent) (min_length : Int) : List PostContent :=
  posts.filter (fun p => (p.body.length : Int) ≥ min_length)

/-- Embeds _get_reposter_handle: reason.by.handle or reason.by.did. -/
def _get_reposter_handle (item : FeedItem) : Option String :=
  match item.reason with
  | none => none
  | some reason =>
      match reason.byUser with
      | none => none
      | some byUser => pyOrStrOpt byUser.handle byUser.did

/-- Embeds _build_repost_info: post URI mapped to reposter handle, when
both are truthy. -/
def _build_repost_info (reposts : List FeedItem) : List (String × String) :=
  reposts.foldl
    (fun info p =>
      match pyStrVal p.post.uri, pyStrVal (_get_reposter_handle p) with
      | some u, some r => dictInsert info u r
      | _, _ => info)
    []

/-- Embeds _map_reposts_to_content: content records matched back to
repost info by position, with the synthetic thread suffix stripped for
the fallback lookup. -/
def _map_reposts_to_content (now : Int) (posts : List FeedItem)
    (repost_info : List (String × String)) : List PostContent :=
  (map_posts_to_content now posts).enum.map
    (fun ic =>
      match posts[ic.1]? with
      | none => ic.2
      | some p =>
          let uri := p.post.uri.getD ""
          let base_uri :=
            if ("#thread").data.isSuffixOf uri.data then pyReplace uri "#thread" ""
            else uri
          match pyStrVal (pyOrStrOpt (dictGet repost_info uri) (dictGet repost_info base_uri)) with
          | some r => { ic.2 with reposted_by := some r }
          | none => ic.2)

/-- The descending published order of the final sort. -/
def publishedGe (a b : PostContent) : Prop := b.published ≤ a.published

instance : DecidableRel publishedGe := fun a b => Int.decLe b.published a.published

/-- sorted(key=published, reverse=True): stable descending sort. -/
def sortByPublishedDesc (posts : List PostContent) : List PostContent :=
  posts.insertionSort publishedGe

/-- The intermediate content lists of export_recent_posts_to_epub. -/
structure ExportIntermediate where
  native_content : List PostContent
  repost_content : List PostContent
  content_posts : List PostContent

/-- Embeds the pure content computation of export_recent_posts_to_epub,
from the fetched posts to the sorted content list (fetching, image
downloads and EPUB binding are I/O around it). -/
def exportPipeline (all_posts : List FeedItem) (min_length repost_min_length : Int)
    (now : Int) : ExportIntermediate :=
  let native_posts := all_posts.filter (fun p => ¬ _is_repost p)
  let reposts := all_posts.filter (fun p => _is_repost p)
  let top_level_native := _filter_top_level_posts native_posts
  let native_threads := find_self_threads native_posts
  let consolidated_native := consolidate_threads_to_posts native_threads
  let native_thread_roots := native_threads.map (fun t => t.head?.bind (·.post.uri))
  let merged_native :=
    top_level_native.filter (fun p => ¬ native_thread_roots.contains p.post.uri) ++
      consolidated_native
  let repost_threads := find_self_threads reposts
  let consolidated_reposts := consolidate_threads_to_posts repost_threads
  let repost_thread_roots := repost_threads.map (fun t => t.head?.bind (·.post.uri))
  let standalone_reposts :=
    reposts.filter
      (fun p => ¬ repost_thread_roots.contains p.post.uri ∧ p.post.record.reply = none)
  let repost_info := _build_repost_info reposts
  let native_content :=
    _filter_by_length (map_posts_to_content now (dedupe_posts merged_native)) min_length
  let all_repost_posts := standalone_reposts ++ consolidated_reposts
  let repost_content :=
    _filter_by_length (_map_reposts_to_content now (dedupe_posts all_repost_posts) repost_info)
      repost_min_length
  let content_posts := sortByPublishedDesc (native_content ++ repost_content)
  ⟨native_content, repost_content, content_posts⟩

/-! ### feed.py: fetch_feed_posts

The atproto client is modelled as a function from feed name, batch size
and cursor to a page; the environment variables as explicit optional
strings; date.today() as an explicit epoch-day parameter; the paging
while loop is given explicit fuel. -/

/-- The two credential environment variables. -/
structure EnvVars where
  handle : Option String
  password : Option String

/-- One page of a feed response. -/
structure FetchPage where
  feed : List FeedItem
  cursor : Option String

/-- The client: feed name, batch size, cursor to page. -/
abbrev ClientFun := String → Int → Option String → FetchPage

/-- The per-page item loop: skip posts older than the cutoff, append the
rest, stop at the limit; the flag records whether any post of the page
was taken (page_has_recent). -/
def processPage (cutoff : Option Int) (limit : Int) :
    List FeedItem → List FeedItem → Bool → List FeedItem × Bool
  | [], acc, flag => (acc, flag)
  | item :: rest, acc, flag =>
      let skip : Bool :=
        match cutoff, pyStrVal item.post.record.created_at with
        | some c, some s => decide (parse_timestamp s < c)
        | _, _ => false
      if skip then processPage cutoff limit rest acc flag
      else
        let acc' := acc ++ [item]
        if (acc'.length : Int) ≥ limit then (acc', true)
        else processPage cutoff limit rest acc' true

/-- The paging while loop of fetch_feed_posts, with explicit fuel. -/
def fetchLoop (client : ClientFun) (feed : String) (limit : Int) (cutoff : Option Int) :
    Nat → Option String → List FeedItem → List FeedItem
  | 0, _, acc => acc
  | fuel + 1, cursor, acc =>
      if (acc.length : Int) < limit then
        let page := client feed (min 100 (limit - acc.length)) cursor
        if page.feed = [] then acc
        else
          let pr := processPage cutoff limit page.feed acc false
          if cutoff.isSome ∧ pr.2 = false then pr.1
          else
            match pyStrVal page.cursor with
            | none => pr.1
            | some c => fetchLoop client feed limit cutoff fuel (some c) pr.1
      else acc

/-- The cutoff: UTC midnight of the reference day minus since_days days,
in microseconds since the epoch. -/
def cutoffMicros (referenceDay since_days : Int) : Int :=
  (referenceDay - since_days) * 86400000000

/-- Embeds fetch_feed_posts: credential check, cutoff computation, feed
name check, then the paging loop.  Failures raised before any network
request are the error results; the client is consulted only inside
fetchLoop. -/
def fetch_feed_posts (env : EnvVars) (client : ClientFun) (fuel : Nat) (limit : Int)
    (since_days : Option Int) (current_date : Option Int) (todayDay : Int)
    (feed : String) : Except String (List FeedItem) :=
  if ¬ (pyTruthy env.handle ∧ pyTruthy env.password) then
    Except.error "BLUESKY_HANDLE and BLUESKY_APP_PASSWORD must be set in .env file"
  else
    let cutoff := since_days.map (cutoffMicros (current_date.getD todayDay))
    if feed ≠ "author" ∧ feed ≠ "timeline" then
      Except.error "feed must be \"author\" or \"timeline\""
    else
      Except.ok (fetchLoop client feed limit cutoff fuel none [])

/-! ### epub_builder.py: _escape_hashtags -/

/-- Split a character list on newlines (the lines the MULTILINE anchor ^
matches at). -/
def splitOnNl : List Char → List (List Char)
  | [] => [[]]
  | c :: rest =>
      match splitOnNl rest with
      | [] => [[]]
      | line :: more => if c = '\n' then [] :: line :: more else (c :: line) :: more

/-- Rejoin lines with newlines. -/
def joinNl : List (List Char) → List Char
  | [] => []
  | [l] => l
  | l :: rest => l ++ '\n' :: joinNl rest

/-- A regex word character (ASCII portion of \w: letters, digits,
underscore; the code's inputs are matched per this class). -/
def isPyWordChar (c : Char) : Bool :=
  c.isAlphanum || c = '_'

/-- One line under the substitution of the anchored pattern (#+)(\w) with
a leading backslash inserted: the leading run of hashes must be non-empty
and immediately followed by a word character. -/
def escLine (line : List Char) : List Char :=
  if (line.takeWhile (fun c => c = '#')).length = 0 then line
  else
    match line.drop (line.takeWhile (fun c => c = '#')).length with
    | [] => line
    | c :: _ => if isPyWordChar c then '\\' :: line else line

/-- Embeds _escape_hashtags: hashtags at line start escaped so markdown
does not render them as headings. -/
def _escape_hashtags (text : String) : String :=
  if text = "" then text
  else ⟨joinNl ((splitOnNl text.data).map escLine)⟩

/-! ### email_content.py: replace_cid_references -/

/-- Whether a character is one of the quote characters of the cid regex. -/
def isQuoteChar (c : Char) : Bool := c = '"' ∨ c = '\''

/-- Case-insensitive literal match (pattern given in lowercase),
returning the rest of the input. -/
def stripCI : List Char → List Char → Option (List Char)
  | [], cs => some cs
  | p :: ps, c :: cs => if c.toLower = p then stripCI ps cs else none
  | _ :: _, [] => none

/-- A match of the pattern src=["']cid:([^"']+)["'] at the head of the
input: the content id and the length of the whole match. -/
def matchCidAt (cs : List Char) : Option (String × Nat) :=
  match stripCI ['s', 'r', 'c', '='] cs with
  | none => none
  | some rest1 =>
      match rest1 with
      | [] => none
      | q1 :: rest2 =>
          if ¬ isQuoteChar q1 then none
          else
            match stripCI ['c', 'i', 'd', ':'] rest2 with
            | none => none
            | some rest3 =>
                let cid := rest3.takeWhile (fun c => ¬ isQuoteChar c)
                if cid.length = 0 then none
                else
                  match rest3.drop cid.length with
                  | [] => none
                  | q2 :: _ =>
                      if isQuoteChar q2 then some (⟨cid⟩, 10 + cid.length)
                      else none

/-- The left-to-right non-overlapping substitution loop of re.sub for the
cid pattern: a mapped content id (with truthy filename) is rewritten to
src="filename", an unmapped one keeps the original match text. -/
def subCidGo (mapping : List (String × String)) : Nat → List Char → List Char
  | 0, cs => cs
  | fuel + 1, cs =>
      match matchCidAt cs with
      | some (cid, n) =>
          (match pyStrVal (dictGet mapping cid) with
           | some filename => ("src=\"" ++ filename ++ "\"").data
           | none => cs.take n) ++
            subCidGo mapping fuel (cs.drop n)
      | none =>
          match cs with
          | [] => []
          | c :: rest => c :: subCidGo mapping fuel rest

/-- Embeds replace_cid_references. -/
def replace_cid_references (html : String) (cid_to_filename : List (String × String)) :
    String :=
  ⟨subCidGo cid_to_filename html.data.length html.data⟩

/-- The content ids matched by the cid pattern, scanning as re.sub does. -/
def cidRefsGo : Nat → List Char → List String
  | 0, _ => []
  | fuel + 1, cs =>
      match matchCidAt cs with
      | some (cid, n) => cid :: cidRefsGo fuel (cs.drop n)
      | none =>
          match cs with
          | [] => []
          | _ :: rest => cidRefsGo fuel rest

/-- The content ids referenced from an HTML string. -/
def cidRefs (html : String) : List String :=
  cidRefsGo html.data.length html.data

/-- A scanned segment of the HTML: either plain text the cid pattern does
not match, or a matched reference with its content id and its original
matched text. -/
abbrev CidSegment := Sum (List Char) (String × List Char)

/-- The text a segment stands for in the input. -/
def segContent : CidSegment → List Char
  | Sum.inl s => s
  | Sum.inr p => p.2

/-- How re.sub's replacement function renders one segment: plain text is
emitted as is; a matched reference is rewritten to src="filename" when its
content id maps to a truthy filename, and otherwise its original matched
text is emitted verbatim. -/
def renderSegment (mapping : List (String × String)) : CidSegment → List Char
  | Sum.inl s => s
  | Sum.inr p =>
      match pyStrVal (dictGet mapping p.1) with
      | some filename => ("src=\"" ++ filename ++ "\"").data
      | none => p.2

/-- The segmentation of the input the re.sub scan induces, independent of
any mapping.  When the fuel runs out the unscanned remainder is one plain
segment (subCidGo returns it unchanged). -/
def cidSegmentsGo : Nat → List Char → List CidSegment
  | 0, cs => [Sum.inl cs]
  | fuel + 1, cs =>
      match matchCidAt cs with
      | some (cid, n) => Sum.inr (cid, cs.take n) :: cidSegmentsGo fuel (cs.drop n)
      | none =>
          match cs with
          | [] => []
          | c :: rest => Sum.inl [c] :: cidSegmentsGo fuel rest

/-- The scanned segments of an HTML string. -/
def cidSegments (html : String) : List CidSegment :=
  cidSegmentsGo html.data.length html.data

/-! ### Specification-side definitions -/

/-- Whether a post carries the given truthy URI. -/
def carriesUri (u : String) (p : FeedItem) : Bool :=
  pyStrVal p.post.uri == some u

/-- Spec wording for deduplication: a post is kept exactly when it has a
truthy URI no earlier post carries. -/
def specKeepHere (earlier : List FeedItem) (p : FeedItem) : Bool :=
  match pyStrVal p.post.uri with
  | some u => earlier.all (fun q => ! carriesUri u q)
  | none => false

/-- Spec wording for deduplication: the sublist of first occurrences of
posts with truthy URIs. -/
def firstOccurrences (earlier : List FeedItem) : List FeedItem → List FeedItem
  | [] => []
  | p :: rest =>
      (if specKeepHere earlier p then [p] else []) ++ firstOccurrences (earlier ++ [p]) rest

/-- A minimal feed item carrying only a URI, for witnesses. -/
def samplePost (u : String) : FeedItem :=
  ⟨⟨some u, none, ⟨none, none⟩, ⟨none, none, none, none, none, none⟩, none⟩, none⟩

/-- A post passes the cutoff when any truthy created_at it carries parses
to a timestamp at or after the cutoff. -/
def passesCutoff (cutoffVal : Int) (p : FeedItem) : Prop :=
  ∀ s, pyStrVal p.post.record.created_at = some s → cutoffVal ≤ parse_timestamp s

/-- A sample post carrying a created_at timestamp. -/
def samplePostAt (u ts : String) : FeedItem :=
  ⟨⟨some u, none, ⟨none, none⟩, ⟨none, none, none, some ts, none, none⟩, none⟩, none⟩

/-- A sample single-page client. -/
def sampleClient : ClientFun :=
  fun _ _ _ => ⟨[samplePostAt "u" "2025-01-06T00:00:00Z"], none⟩

/-- A facet whose index holds the camelCase key byteStart with value 0 and
no snake_case key, over a valid link span [0, 2). -/
def facetC8 : Facet :=
  { index := some { byteStart := some 0, byte_start := none, byteEnd := some 2, byte_end := none }
    features := [{ ftype := some "app.bsky.richtext.facet#link", py_type := none,
                   uri := some "http://x" }] }

/-- The same facet with the offsets under the snake_case keys instead. -/
def facetC8snake : Facet :=
  { index := some { byteStart := none, byte_start := some 0, byteEnd := some 2, byte_end := none }
    features := [{ ftype := some "app.bsky.richtext.facet#link", py_type := none,
                   uri := some "http://x" }] }

/-- Validity of a replacement triple for a byte length: in range and not
inverted. -/
def validSpan (byteLen : Nat) (r : Int × Int × String) : Prop :=
  0 ≤ r.1 ∧ r.1 < r.2.1 ∧ r.2.1 ≤ (byteLen : Int)

/-- Non-overlap of two spans. -/
def spansDisjoint (a b : Int × Int × String) : Prop :=
  a.2.1 ≤ b.1 ∨ b.2.1 ≤ a.1

/-- The labeled spans as Nat offsets. -/
def natSpans (l : List (Int × Int × String × String)) :
    List (Nat × Nat × String × String) :=
  l.map (fun r => (r.1.toNat, r.2.1.toNat, r.2.2.1, r.2.2.2))

/-- Spec wording for link rewriting: the text with each labeled span
replaced, left to right; pos is the number of bytes already consumed. -/
def specReplaceFrom (bt : List Nat) : Nat → List (Nat × Nat × String × String) → List Nat
  | pos, [] => bt.drop pos
  | pos, r :: rest =>
      (bt.drop pos).take (r.1 - pos) ++ linkMarkdownBytes r.2.2.2 r.2.2.1 ++
        specReplaceFrom bt r.2.1 rest

/-- The numbered, ascending labeled spans a byte text and facet list give
rise to. -/
def numberedSpans (bt : List Nat) (facets : List Facet) :
    List (Int × Int × String × String) :=
  labelFrom 1 ((collectRepls bt.length facets).insertionSort replLe)

/-- A facet with snake_case byte offsets 3..4 for the witness. -/
def facetW : Facet :=
  { index := some { byteStart := none, byte_start := some 3, byteEnd := none, byte_end := some 4 }
    features := [{ ftype := some "app.bsky.richtext.facet#link", py_type := none,
                   uri := some "u" }] }

/-- Any two posts sharing a truthy URI agree on the author identifier. -/
def authorsConsistent (posts : List FeedItem) : Prop :=
  ∀ p ∈ posts, ∀ q ∈ posts, ∀ u : String,
    pyStrVal p.post.uri = some u → pyStrVal q.post.uri = some u →
    _get_author_identifier p = _get_author_identifier q

/-- A two-post self thread whose reply text carries surrounding
whitespace. -/
def cpostRoot : FeedItem :=
  ⟨⟨some "u1", some "c1", ⟨some "d", none⟩,
    ⟨none, none, some "a", none, none, none⟩, none⟩, none⟩

/-- The reply post of the thread, with text " b ". -/
def cpostChild : FeedItem :=
  ⟨⟨some "u2", some "c2", ⟨some "d", none⟩,
    ⟨none, none, some " b ", none, some ⟨some ⟨some "u1", none⟩⟩, none⟩, none⟩, none⟩

/-- A reply post under URI "u" by author x. -/
def cpostA1 : FeedItem :=
  ⟨⟨some "u", none, ⟨some "x", none⟩,
    ⟨none, none, some "child", none, some ⟨some ⟨some "p", none⟩⟩, none⟩, none⟩, none⟩

/-- A second post under the same URI "u" by author y. -/
def cpostA2 : FeedItem :=
  ⟨⟨some "u", none, ⟨some "y", none⟩,
    ⟨none, none, some "other", none, none, none⟩, none⟩, none⟩

/-- The parent post "p" by author x. -/
def cpostP : FeedItem :=
  ⟨⟨some "p", none, ⟨some "x", none⟩,
    ⟨none, none, some "root", none, none, none⟩, none⟩, none⟩

/-! ## Theorems -/

/-! ### Deduplication (claims C3 and C9) -/

theorem dedupeGo_sublist (posts : List FeedItem) :
    ∀ seen, List.Sublist (dedupeGo seen posts) posts := by
  induction posts with
  | nil => intro seen; simp [dedupeGo]
  | cons p rest ih =>
      intro seen
      simp only [dedupeGo]
      cases h : pyStrVal p.post.uri with
      | none => exact List.Sublist.cons p (ih seen)
      | some u =>
          by_cases hc : seen.contains u
          · simp only [hc, if_true]
            exact List.Sublist.cons p (ih seen)
          · simp only [hc, if_false]
            exact List.Sublist.cons₂ p (ih (u :: seen))

theorem dedupeGo_filter_of_seen (u : String) (posts : List FeedItem) :
    ∀ seen, seen.contains u = true →
      (dedupeGo seen posts).filter (carriesUri u) = [] := by
  induction posts with
  | nil => intro seen _; simp [dedupeGo]
  | cons p rest ih =>
      intro seen hseen
      cases h : pyStrVal p.post.uri with
      | none =>
          simp only [dedupeGo, h]
          exact ih seen hseen
      | some v =>
          by_cases hc : seen.contains v = true
          · simp only [dedupeGo, h, hc, if_true]
            exact ih seen hseen
          · simp only [dedupeGo, h, hc, if_false, List.filter]
            have hvu : v ≠ u := fun hcon => hc (hcon ▸ hseen)
            have hne : carriesUri u p = false := by
              simp only [carriesUri, h, beq_iff_eq, Option.some.injEq]
              exact decide_eq_false hvu
            rw [hne]
            refine ih (v :: seen) ?_
            simp only [List.contains_cons, Bool.or_eq_true]
            exact Or.inr hseen

theorem dedupeGo_filter_first (u : String) (p : FeedItem) (posts : List FeedItem) :
    ∀ seen, seen.contains u = false →
      posts.find? (carriesUri u) = some p →
      (dedupeGo seen posts).filter (carriesUri u) = [p] := by
  induction posts with
  | nil => intro seen _ hfind; simp [List.find?] at hfind
  | cons q rest ih =>
      intro seen hseen hfind
      by_cases hq : carriesUri u q = true
      · rw [List.find?_cons_of_pos _ hq] at hfind
        injection hfind with hqp
        subst hqp
        have huri : pyStrVal q.post.uri = some u := by
          simpa [carriesUri, beq_iff_eq] using hq
        simp only [dedupeGo, huri, hseen, if_false, List.filter, hq]
        have hrest : (dedupeGo (u :: seen) rest).filter (carriesUri u) = [] := by
          refine dedupeGo_filter_of_seen u rest (u :: seen) ?_
          simp [List.contains_cons]
        rw [hrest]
      · rw [List.find?_cons_of_neg _ hq] at hfind
        cases h : pyStrVal q.post.uri with
        | none =>
            simp only [dedupeGo, h]
            exact ih seen hseen hfind
        | some v =>
            have hvu : v ≠ u := by
              intro hcon
              subst hcon
              exact hq (by simp [carriesUri, h])
            by_cases hc : seen.contains v = true
            · simp only [dedupeGo, h, hc, if_true]
              exact ih seen hseen hfind
            · simp only [dedupeGo, h, hc, if_false, List.filter, hq]
              refine ih (v :: seen) ?_ hfind
              simp only [List.contains_cons, Bool.or_eq_false_iff]
              refine ⟨?_, hseen⟩
              simp [beq_iff_eq]
              exact fun hcon => hvu hcon.symm

/-- C3: for every list of posts, possibly with repeated URIs, dedupe_posts
returns a list in which each URI occurs exactly once (the posts carrying a
given URI reduce to exactly one), the post kept for a URI is the first
post that carried it, and the kept posts appear in the input's relative
order (the result is a sublist of the input). -/
theorem claim_C3 (posts : List FeedItem) :
    List.Sublist (dedupe_posts posts) posts ∧
    ∀ u p, posts.find? (carriesUri u) = some p →
      (dedupe_posts posts).filter (carriesUri u) = [p] := by
  refine ⟨dedupeGo_sublist posts [], ?_⟩
  intro u p hfind
  exact dedupeGo_filter_first u p posts [] (by simp) hfind


/-- Witness for C3 at a concrete duplicated list. -/
theorem witness_C3 :
    List.Sublist (dedupe_posts [samplePost "a", samplePost "a"])
      [samplePost "a", samplePost "a"] ∧
    (dedupe_posts [samplePost "a", samplePost "a"]).filter (carriesUri "a") =
      [samplePost "a"] :=
  ⟨(claim_C3 [samplePost "a", samplePost "a"]).1,
   (claim_C3 [samplePost "a", samplePost "a"]).2 "a" (samplePost "a") (by decide)⟩

theorem dedupeGo_eq_firstOccurrences (posts : List FeedItem) :
    ∀ seen earlier,
      (∀ u, seen.contains u = true ↔ ∃ q ∈ earlier, pyStrVal q.post.uri = some u) →
      dedupeGo seen posts = firstOccurrences earlier posts := by
  induction posts with
  | nil => intro seen earlier _; simp [dedupeGo, firstOccurrences]
  | cons p rest ih =>
      intro seen earlier hinv
      cases h : pyStrVal p.post.uri with
      | none =>
          simp only [dedupeGo, h, firstOccurrences, specKeepHere, h, if_neg,
            List.nil_append]
          refine ih seen (earlier ++ [p]) ?_
          intro u
          rw [hinv u]
          constructor
          · rintro ⟨q, hq, hval⟩; exact ⟨q, by simp [hq], hval⟩
          · rintro ⟨q, hq, hval⟩
            rcases List.mem_append.mp hq with hq' | hq'
            · exact ⟨q, hq', hval⟩
            · rcases List.mem_singleton.mp hq' with rfl
              rw [h] at hval; cases hval
      | some u =>
          by_cases hc : seen.contains u = true
          · -- already seen: skipped on both sides
            have hkeep : specKeepHere earlier p = false := by
              rcases (hinv u).mp hc with ⟨q, hq, hval⟩
              simp only [specKeepHere, h]
              refine List.all_eq_false.mpr ⟨q, hq, ?_⟩
              simp [carriesUri, hval]
            simp only [dedupeGo, h, firstOccurrences]
            rw [if_pos hc, if_neg (by rw [hkeep]; exact Bool.false_ne_true),
              List.nil_append]
            refine ih seen (earlier ++ [p]) ?_
            intro v
            rw [hinv v]
            constructor
            · rintro ⟨q, hq, hval⟩; exact ⟨q, by simp [hq], hval⟩
            · rintro ⟨q, hq, hval⟩
              rcases List.mem_append.mp hq with hq1 | hq1
              · exact ⟨q, hq1, hval⟩
              · rcases List.mem_singleton.mp hq1 with rfl
                rw [h] at hval
                injection hval with hv
                rw [← hv]
                exact (hinv u).mp hc
          · -- new URI: kept on both sides
            have hkeep : specKeepHere earlier p = true := by
              simp only [specKeepHere, h]
              refine List.all_eq_true.mpr ?_
              intro q hq
              by_contra hcon
              simp only [Bool.not_eq_true, Bool.not_eq_false] at hcon
              have hval : pyStrVal q.post.uri = some u := by
                simpa [carriesUri, beq_iff_eq] using hcon
              exact hc ((hinv u).mpr ⟨q, hq, hval⟩)
            simp only [dedupeGo, h, firstOccurrences]
            rw [if_neg hc, if_pos hkeep, List.singleton_append]
            refine congrArg (p :: ·) ?_
            refine ih (u :: seen) (earlier ++ [p]) ?_
            intro v
            simp only [List.contains_cons, Bool.or_eq_true, beq_iff_eq]
            constructor
            · rintro (rfl | hs)
              · exact ⟨p, by simp, h⟩
              · rcases (hinv v).mp hs with ⟨q, hq, hval⟩
                exact ⟨q, by simp [hq], hval⟩
            · rintro ⟨q, hq, hval⟩
              rcases List.mem_append.mp hq with hq1 | hq1
              · exact Or.inr ((hinv v).mpr ⟨q, hq1, hval⟩)
              · rcases List.mem_singleton.mp hq1 with rfl
                rw [h] at hval
                injection hval with hv
                exact Or.inl hv.symm

theorem dedupeGo_mem_truthy (posts : List FeedItem) :
    ∀ seen p, p ∈ dedupeGo seen posts → (pyStrVal p.post.uri).isSome := by
  induction posts with
  | nil => intro seen p hp; simp [dedupeGo] at hp
  | cons q rest ih =>
      intro seen p hp
      cases h : pyStrVal q.post.uri with
      | none =>
          simp only [dedupeGo, h] at hp
          exact ih seen p hp
      | some u =>
          simp only [dedupeGo, h] at hp
          by_cases hc : seen.contains u = true
          · rw [if_pos hc] at hp
            exact ih seen p hp
          · rw [if_neg hc] at hp
            rcases List.mem_cons.mp hp with rfl | hp1
            · simp [h]
            · exact ih (u :: seen) p hp1

/-- C9: dedupe_posts keeps exactly the first occurrence of each post with
a truthy URI — the result equals the first-occurrence sublist, and a post
whose uri is missing or empty never appears in the output. -/
theorem claim_C9 (posts : List FeedItem) :
    dedupe_posts posts = firstOccurrences [] posts ∧
    ∀ p ∈ dedupe_posts posts, (pyStrVal p.post.uri).isSome := by
  constructor
  · exact dedupeGo_eq_firstOccurrences posts [] [] (by simp)
  · intro p hp
    exact dedupeGo_mem_truthy posts [] p hp

/-- Witness for C9 at a concrete list. -/
theorem witness_C9 :
    dedupe_posts [samplePost "a"] = firstOccurrences [] [samplePost "a"] ∧
    (pyStrVal (samplePost "a").post.uri).isSome :=
  ⟨(claim_C9 [samplePost "a"]).1,
   (claim_C9 [samplePost "a"]).2 (samplePost "a") (by decide)⟩

/-! ### Hashtag escaping (claim C5) -/

theorem takeWhile_hash_of_ne (k : Nat) (c : Char) (rest : List Char) (hc : c ≠ '#') :
    (List.replicate k '#' ++ c :: rest).takeWhile (fun ch => ch = '#') =
      List.replicate k '#' := by
  induction k with
  | zero => simp [List.takeWhile_cons, hc]
  | succ n ih => simpa [List.replicate_succ, List.takeWhile_cons] using ih

theorem drop_hash_run (k : Nat) (c : Char) (rest : List Char) :
    (List.replicate k '#' ++ c :: rest).drop k = c :: rest := by
  have h := List.drop_left (List.replicate k '#') (c :: rest)
  rw [List.length_replicate] at h
  exact h

theorem escLine_of_word (k : Nat) (c : Char) (rest : List Char) (hk : 0 < k)
    (hw : isPyWordChar c = true) :
    escLine (List.replicate k '#' ++ c :: rest) =
      '\\' :: (List.replicate k '#' ++ c :: rest) := by
  have hc : c ≠ '#' := by
    intro h
    rw [h] at hw
    exact absurd hw (by decide)
  rw [escLine, takeWhile_hash_of_ne k c rest hc]
  rw [List.length_replicate]
  rw [if_neg (Nat.pos_iff_ne_zero.mp hk)]
  rw [drop_hash_run k c rest]
  simp [hw]

theorem escLine_of_space (k : Nat) (rest : List Char) :
    escLine (List.replicate k '#' ++ ' ' :: rest) = List.replicate k '#' ++ ' ' :: rest := by
  have hc : (' ' : Char) ≠ '#' := by decide
  cases k with
  | zero =>
      rw [escLine, takeWhile_hash_of_ne 0 ' ' rest hc]
      simp
  | succ n =>
      rw [escLine, takeWhile_hash_of_ne (n + 1) ' ' rest hc]
      rw [List.length_replicate]
      rw [if_neg (Nat.succ_ne_zero n)]
      rw [drop_hash_run (n + 1) ' ' rest]
      simp [isPyWordChar]

theorem escLine_of_no_hash (line : List Char) (h : line.head? ≠ some '#') :
    escLine line = line := by
  cases line with
  | nil => rfl
  | cons c rest =>
      have hc : c ≠ '#' := by
        intro hcon
        exact h (by rw [hcon]; rfl)
      rw [escLine]
      rw [if_pos (by simp [List.takeWhile_cons, hc])]

/-- C5: hashtag escaping rewrites a line beginning with a hash run
immediately followed by a word character to the same line with a leading
backslash, leaves a line whose hash run is followed by a space unchanged,
leaves any line not beginning with a hash (mid-line hashtags) unchanged,
and _escape_hashtags applies this per line of the text. -/
theorem claim_C5 :
    (∀ s : String, _escape_hashtags s = ⟨joinNl ((splitOnNl s.data).map escLine)⟩) ∧
    (∀ (k : Nat) (c : Char) (rest : List Char), 0 < k → isPyWordChar c = true →
      escLine (List.replicate k '#' ++ c :: rest) =
        '\\' :: (List.replicate k '#' ++ c :: rest)) ∧
    (∀ (k : Nat) (rest : List Char),
      escLine (List.replicate k '#' ++ ' ' :: rest) =
        List.replicate k '#' ++ ' ' :: rest) ∧
    (∀ line : List Char, line.head? ≠ some '#' → escLine line = line) := by
  refine ⟨?_, escLine_of_word, escLine_of_space, escLine_of_no_hash⟩
  intro s
  by_cases hs : s = ""
  · subst hs
    rfl
  · rw [_escape_hashtags, if_neg hs]

/-! ### Length filtering (claim C4) -/

theorem mem_filter_by_length (posts : List PostContent) (min_length : Int)
    (p : PostContent) :
    p ∈ _filter_by_length posts min_length ↔
      p ∈ posts ∧ min_length ≤ (p.body.length : Int) := by
  simp only [_filter_by_length, List.mem_filter, ge_iff_le, decide_eq_true_eq]

/-- C4: a post whose body has length L is kept by the length filter iff
L ≥ min_length (boundary included), and in the export pipeline every
native content item passed the min_length threshold while every repost
content item passed the repost_min_length threshold. -/
theorem claim_C4 :
    (∀ (posts : List PostContent) (min_length : Int) (p : PostContent),
      p ∈ _filter_by_length posts min_length ↔
        p ∈ posts ∧ min_length ≤ (p.body.length : Int)) ∧
    (∀ (all_posts : List FeedItem) (min_length repost_min_length now : Int),
      (∀ p ∈ (exportPipeline all_posts min_length repost_min_length now).native_content,
        min_length ≤ (p.body.length : Int)) ∧
      (∀ p ∈ (exportPipeline all_posts min_length repost_min_length now).repost_content,
        repost_min_length ≤ (p.body.length : Int))) := by
  refine ⟨mem_filter_by_length, ?_⟩
  intro all_posts min_length repost_min_length now
  constructor
  · intro p hp
    simp only [exportPipeline] at hp
    exact ((mem_filter_by_length _ _ _).mp hp).2
  · intro p hp
    simp only [exportPipeline] at hp
    exact ((mem_filter_by_length _ _ _).mp hp).2

/-- Witness for C4 at a concrete one-post pipeline. -/
theorem witness_C4 :
    (0 : Int) ≤ ((mapPostToContent 0 (samplePost "a")).body.length : Int) ∧
    mapPostToContent 0 (samplePost "a") ∈
      _filter_by_length [mapPostToContent 0 (samplePost "a")] 0 :=
  ⟨(claim_C4.2 [samplePost "a"] 0 300 0).1 (mapPostToContent 0 (samplePost "a"))
      (by decide),
   (claim_C4.1 [mapPostToContent 0 (samplePost "a")] 0
      (mapPostToContent 0 (samplePost "a"))).mpr ⟨by simp, by decide⟩⟩

/-- Witness for C5 at concrete lines and a concrete text. -/
theorem witness_C5 :
    _escape_hashtags "#tag\n# head\nmid #tag" =
      ⟨joinNl ((splitOnNl ("#tag\n# head\nmid #tag").data).map escLine)⟩ ∧
    escLine (List.replicate 1 '#' ++ 't' :: ['a', 'g']) =
      '\\' :: (List.replicate 1 '#' ++ 't' :: ['a', 'g']) ∧
    escLine (List.replicate 1 '#' ++ ' ' :: ['h']) =
      List.replicate 1 '#' ++ ' ' :: ['h'] ∧
    escLine ['m', 'i', 'd'] = ['m', 'i', 'd'] :=
  ⟨claim_C5.1 "#tag\n# head\nmid #tag",
   claim_C5.2.1 1 't' ['a', 'g'] (by decide) (by decide),
   claim_C5.2.2.1 1 ['h'],
   claim_C5.2.2.2 ['m', 'i', 'd'] (by decide)⟩

/-! ### CID reference rewriting (claim C10) -/

theorem subCidGo_id (mapping : List (String × String)) :
    ∀ (fuel : Nat) (cs : List Char),
      (∀ cid ∈ cidRefsGo fuel cs, dictGet mapping cid = none) →
      subCidGo mapping fuel cs = cs := by
  intro fuel
  induction fuel with
  | zero => intro cs _; rfl
  | succ n ih =>
      intro cs hyp
      cases hm : matchCidAt cs with
      | some val =>
          have hcid : dictGet mapping val.1 = none := by
            refine hyp val.1 ?_
            simp [cidRefsGo, hm]
          simp only [subCidGo, hm, hcid, pyStrVal]
          rw [ih (cs.drop val.2) ?_]
          · exact List.take_append_drop val.2 cs
          · intro cid hcidmem
            refine hyp cid ?_
            simp [cidRefsGo, hm]
            exact Or.inr hcidmem
      | none =>
          cases cs with
          | nil => simp [subCidGo, hm]
          | cons c rest =>
              simp only [subCidGo, hm]
              rw [ih rest ?_]
              intro cid hcidmem
              refine hyp cid ?_
              simpa [cidRefsGo, hm] using hcidmem

theorem subCidGo_eq_render (mapping : List (String × String)) :
    ∀ (fuel : Nat) (cs : List Char),
      subCidGo mapping fuel cs =
        ((cidSegmentsGo fuel cs).map (renderSegment mapping)).flatten := by
  intro fuel
  induction fuel with
  | zero =>
      intro cs
      simp [subCidGo, cidSegmentsGo, renderSegment]
  | succ n ih =>
      intro cs
      cases hm : matchCidAt cs with
      | some val =>
          simp only [subCidGo, cidSegmentsGo, hm, List.map_cons, List.flatten_cons,
            ih (cs.drop val.2)]
          rw [renderSegment]
      | none =>
          cases cs with
          | nil => simp [subCidGo, cidSegmentsGo, hm]
          | cons c rest =>
              simp only [subCidGo, cidSegmentsGo, hm, List.map_cons, List.flatten_cons,
                renderSegment, List.singleton_append, ih rest]

theorem cidSegmentsGo_content :
    ∀ (fuel : Nat) (cs : List Char),
      ((cidSegmentsGo fuel cs).map segContent).flatten = cs := by
  intro fuel
  induction fuel with
  | zero =>
      intro cs
      simp [cidSegmentsGo, segContent]
  | succ n ih =>
      intro cs
      cases hm : matchCidAt cs with
      | some val =>
          simp only [cidSegmentsGo, hm, List.map_cons, List.flatten_cons,
            ih (cs.drop val.2), segContent]
          exact List.take_append_drop val.2 cs
      | none =>
          cases cs with
          | nil => simp [cidSegmentsGo, hm]
          | cons c rest =>
              simp only [cidSegmentsGo, hm, List.map_cons, List.flatten_cons,
                segContent, List.singleton_append, ih rest]

/-- C10: replace_cid_references renders each scanned segment of the HTML
independently of the others — the output is the concatenation of the
per-segment renderings, the segments tile the input exactly, a reference
whose content id is not a key of the mapping renders to its original
matched text verbatim (regardless of what the mapping holds for other
references), and in particular with an empty mapping the whole HTML is
returned unchanged. -/
theorem claim_C10 :
    (∀ (html : String) (mapping : List (String × String)),
      replace_cid_references html mapping =
        ⟨((cidSegments html).map (renderSegment mapping)).flatten⟩) ∧
    (∀ html : String, ((cidSegments html).map segContent).flatten = html.data) ∧
    (∀ (mapping : List (String × String)) (cid : String) (original : List Char),
      dictGet mapping cid = none →
      renderSegment mapping (Sum.inr (cid, original)) = original) ∧
    (∀ html : String, replace_cid_references html [] = html) := by
  have hchar : ∀ (html : String) (mapping : List (String × String)),
      replace_cid_references html mapping =
        ⟨((cidSegments html).map (renderSegment mapping)).flatten⟩ := by
    intro html mapping
    rw [replace_cid_references, cidSegments,
      subCidGo_eq_render mapping html.data.length html.data]
  have hunmapped : ∀ (mapping : List (String × String)) (cid : String)
      (original : List Char), dictGet mapping cid = none →
      renderSegment mapping (Sum.inr (cid, original)) = original := by
    intro mapping cid original h
    rw [renderSegment, h]
    rfl
  refine ⟨hchar, fun html => cidSegmentsGo_content html.data.length html.data,
    hunmapped, ?_⟩
  intro html
  rw [hchar html []]
  have hnil : ∀ seg ∈ cidSegments html, renderSegment [] seg = segContent seg := by
    intro seg _
    cases seg with
    | inl s => rfl
    | inr p => exact hunmapped [] p.1 p.2 rfl
  rw [List.map_congr_left hnil, cidSegments,
    cidSegmentsGo_content html.data.length html.data]

/-- Witness for C10 at a concrete HTML string holding one mapped and one
unmapped cid reference: the unmapped reference is preserved verbatim while
the other is rewritten. -/
theorem witness_C10 :
    replace_cid_references "<img src=\"cid:abc\"> <img src=\"cid:def\">"
        [("abc", "img1.png")] =
      ⟨((cidSegments "<img src=\"cid:abc\"> <img src=\"cid:def\">").map
          (renderSegment [("abc", "img1.png")])).flatten⟩ ∧
    dictGet [("abc", "img1.png")] "def" = none ∧
    renderSegment [("abc", "img1.png")] (Sum.inr ("def", ("src=\"cid:def\"").data)) =
      ("src=\"cid:def\"").data ∧
    replace_cid_references "<img src=\"cid:abc\"> <img src=\"cid:def\">"
        [("abc", "img1.png")] =
      "<img src=\"img1.png\"> <img src=\"cid:def\">" ∧
    replace_cid_references "<img src=\"cid:abc\"> <img src=\"cid:def\">" [] =
      "<img src=\"cid:abc\"> <img src=\"cid:def\">" :=
  ⟨claim_C10.1 "<img src=\"cid:abc\"> <img src=\"cid:def\">" [("abc", "img1.png")],
   by rfl,
   claim_C10.2.2.1 [("abc", "img1.png")] "def" (("src=\"cid:def\"").data) (by rfl),
   by rfl,
   claim_C10.2.2.2 "<img src=\"cid:abc\"> <img src=\"cid:def\">"⟩

/-! ### Credential errors (claim C7) -/

/-- C7: fetch_feed_posts fails with a ValueError whenever either
credential variable is missing or empty, and it does so for every client
and every other argument — in particular before any network request or
authentication attempt, since the result does not depend on the client. -/
theorem claim_C7 (env : EnvVars)
    (h : ¬ pyTruthy env.handle = true ∨ ¬ pyTruthy env.password = true) :
    ∀ (client : ClientFun) (fuel : Nat) (limit : Int) (since_days : Option Int)
      (current_date : Option Int) (todayDay : Int) (feed : String),
      fetch_feed_posts env client fuel limit since_days current_date todayDay feed =
        Except.error "BLUESKY_HANDLE and BLUESKY_APP_PASSWORD must be set in .env file" := by
  intro client fuel limit since_days current_date todayDay feed
  rw [fetch_feed_posts, if_pos ?_]
  intro hcon
  rcases h with h1 | h1
  · exact h1 hcon.1
  · exact h1 hcon.2

/-- Witness for C7 with a missing handle and two different clients. -/
theorem witness_C7 :
    (¬ pyTruthy (EnvVars.mk none (some "pw")).handle = true ∨
      ¬ pyTruthy (EnvVars.mk none (some "pw")).password = true) ∧
    fetch_feed_posts (EnvVars.mk none (some "pw")) (fun _ _ _ => ⟨[], none⟩) 5 100
        (some 7) none 20000 "timeline" =
      Except.error "BLUESKY_HANDLE and BLUESKY_APP_PASSWORD must be set in .env file" ∧
    fetch_feed_posts (EnvVars.mk none (some "pw")) (fun _ _ _ => ⟨[samplePost "a"], some "c"⟩)
        5 100 (some 7) none 20000 "timeline" =
      Except.error "BLUESKY_HANDLE and BLUESKY_APP_PASSWORD must be set in .env file" :=
  ⟨Or.inl (by decide),
   claim_C7 (EnvVars.mk none (some "pw")) (Or.inl (by decide)) (fun _ _ _ => ⟨[], none⟩)
     5 100 (some 7) none 20000 "timeline",
   claim_C7 (EnvVars.mk none (some "pw")) (Or.inl (by decide))
     (fun _ _ _ => ⟨[samplePost "a"], some "c"⟩) 5 100 (some 7) none 20000 "timeline"⟩

/-! ### Recency cutoff and post limit (claim C6) -/


theorem processPage_invariant (cutoffVal limit : Int) (items : List FeedItem) :
    ∀ acc flag,
      (∀ p ∈ acc, passesCutoff cutoffVal p) → (acc.length : Int) < limit →
      (∀ p ∈ (processPage (some cutoffVal) limit items acc flag).1, passesCutoff cutoffVal p) ∧
      (((processPage (some cutoffVal) limit items acc flag).1.length : Int) ≤ limit) := by
  induction items with
  | nil =>
      intro acc flag hacc hlen
      exact ⟨hacc, le_of_lt hlen⟩
  | cons item rest ih =>
      intro acc flag hacc hlen
      by_cases hskip :
          (match some cutoffVal, pyStrVal item.post.record.created_at with
            | some c, some s => decide (parse_timestamp s < c)
            | _, _ => false) = true
      · simp only [processPage, hskip, if_true]
        exact ih acc flag hacc hlen
      · have hpass : passesCutoff cutoffVal item := by
          intro s hs
          rw [hs] at hskip
          simp only [decide_eq_true_eq] at hskip
          exact le_of_not_lt hskip
        have haccall : ∀ p ∈ acc ++ [item], passesCutoff cutoffVal p := by
          intro p hp
          rcases List.mem_append.mp hp with hp1 | hp1
          · exact hacc p hp1
          · rcases List.mem_singleton.mp hp1 with rfl
            exact hpass
        have hlen1 : ((acc ++ [item]).length : Int) ≤ limit := by
          simp only [List.length_append, List.length_singleton]
          push_cast
          omega
        simp only [processPage, hskip, if_false]
        by_cases hfull : ((acc ++ [item]).length : Int) ≥ limit
        · rw [if_pos hfull]
          exact ⟨haccall, hlen1⟩
        · rw [if_neg hfull]
          exact ih (acc ++ [item]) true haccall (lt_of_not_ge hfull)

theorem fetchLoop_invariant (client : ClientFun) (feed : String) (limit cutoffVal : Int) :
    ∀ (fuel : Nat) (cursor : Option String) (acc : List FeedItem),
      (∀ p ∈ acc, passesCutoff cutoffVal p) → (acc.length : Int) ≤ limit →
      (∀ p ∈ fetchLoop client feed limit (some cutoffVal) fuel cursor acc,
        passesCutoff cutoffVal p) ∧
      ((fetchLoop client feed limit (some cutoffVal) fuel cursor acc).length : Int) ≤ limit := by
  intro fuel
  induction fuel with
  | zero => intro cursor acc hacc hlen; exact ⟨hacc, hlen⟩
  | succ n ih =>
      intro cursor acc hacc hlen
      by_cases hlt : (acc.length : Int) < limit
      · simp only [fetchLoop]
        rw [if_pos hlt]
        by_cases hempty : (client feed (min 100 (limit - acc.length)) cursor).feed = []
        · rw [if_pos hempty]
          exact ⟨hacc, hlen⟩
        · rw [if_neg hempty]
          have hpr := processPage_invariant cutoffVal limit
            (client feed (min 100 (limit - acc.length)) cursor).feed acc false hacc hlt
          by_cases hflag : (Option.isSome (some cutoffVal) ∧
              (processPage (some cutoffVal) limit
                (client feed (min 100 (limit - acc.length)) cursor).feed acc false).2 = false)
          · rw [if_pos hflag]
            exact hpr
          · rw [if_neg hflag]
            cases hcur : pyStrVal (client feed (min 100 (limit - acc.length)) cursor).cursor with
            | none => exact hpr
            | some c => exact ih (some c) _ hpr.1 hpr.2
      · simp only [fetchLoop]
        rw [if_neg hlt]
        exact ⟨hacc, hlen⟩

/-- C6: for every call of fetch_feed_posts with since_days = N and
reference day d (today when the reference date is None) that returns a
post list, every returned post carrying a truthy created_at timestamp
parses to at or after the cutoff midnight d minus N days — older posts
never appear — and the result holds at most limit posts. -/
theorem claim_C6 (env : EnvVars) (client : ClientFun) (fuel : Nat) (limit N : Int)
    (current_date : Option Int) (todayDay : Int) (feed : String) (posts : List FeedItem)
    (hlim : 0 ≤ limit)
    (hok : fetch_feed_posts env client fuel limit (some N) current_date todayDay feed =
      Except.ok posts) :
    (∀ p ∈ posts, passesCutoff (cutoffMicros (current_date.getD todayDay) N) p) ∧
    (posts.length : Int) ≤ limit := by
  rw [fetch_feed_posts] at hok
  by_cases henv : (pyTruthy env.handle = true ∧ pyTruthy env.password = true)
  · rw [if_neg (by exact fun hcon => hcon henv)] at hok
    by_cases hfeed : (feed ≠ "author" ∧ feed ≠ "timeline")
    · rw [if_pos hfeed] at hok
      cases hok
    · rw [if_neg hfeed] at hok
      simp only [Option.map_some'] at hok
      injection hok with hposts
      subst hposts
      exact fetchLoop_invariant client feed limit
        (cutoffMicros (current_date.getD todayDay) N) fuel none []
        (by intro p hp; cases hp) (by simpa using hlim)
  · rw [if_pos henv] at hok
    cases hok


/-- Witness for C6 at a concrete client and reference day. -/
theorem witness_C6 :
    (0 : Int) ≤ 10 ∧
    (∀ p ∈ [samplePostAt "u" "2025-01-06T00:00:00Z"], passesCutoff (cutoffMicros 20000 7) p) ∧
    (([samplePostAt "u" "2025-01-06T00:00:00Z"] : List FeedItem).length : Int) ≤ 10 :=
  ⟨by decide,
   claim_C6 (EnvVars.mk (some "h") (some "p")) sampleClient 2 10 7 (some 20000) 19000
     "timeline" [samplePostAt "u" "2025-01-06T00:00:00Z"] (by decide) (by rfl)⟩

/-! ### Falsy byteStart lookup (claim C8) -/


/-- C8: a facet whose index carries byteStart 0 under the camelCase key
only is skipped by the falsy-or key lookup — its in-range link span at
byte offset 0 is never rewritten — although the identical span given
under the snake_case key is rewritten. -/
theorem claim_C8 :
    _apply_link_facets "ab cdef" [facetC8] = "ab cdef" ∧
    facetRepl (utf8Encode "ab cdef").length facetC8 = none ∧
    _apply_link_facets "ab cdef" [facetC8snake] = "[link1](http://x) cdef" :=
  ⟨by rfl, by rfl, by rfl⟩

/-! ### Link facet rewriting (claim C2) -/

theorem char_lt_iff_toNat (a b : Char) : a < b ↔ a.toNat < b.toNat :=
  ⟨fun h => h, fun h => h⟩

theorem strLtList_iff (as bs : List Char) : strLtList as bs = true ↔ as < bs := by
  induction as generalizing bs with
  | nil =>
      cases bs with
      | nil =>
          simp only [strLtList, Bool.false_eq_true, false_iff]
          intro h; cases h
      | cons b bs =>
          simp only [strLtList, true_iff]
          exact List.Lex.nil
  | cons a as ih =>
      cases bs with
      | nil =>
          simp only [strLtList, Bool.false_eq_true, false_iff]
          intro h; cases h
      | cons b bs =>
          by_cases h1 : a.toNat < b.toNat
          · simp only [strLtList, h1, if_true, true_iff]
            exact List.Lex.rel ((char_lt_iff_toNat a b).mpr h1)
          · by_cases h2 : b.toNat < a.toNat
            · simp only [strLtList, h1, if_false, h2, if_true, Bool.false_eq_true,
                false_iff]
              intro hcon
              cases hcon with
              | rel hab => exact h1 ((char_lt_iff_toNat a b).mp hab)
              | cons _ => exact Nat.lt_irrefl _ h2
            · have hab : a = b := by
                refine le_antisymm ?_ ?_
                · exact le_of_not_lt (fun h => h2 ((char_lt_iff_toNat b a).mp h))
                · exact le_of_not_lt (fun h => h1 ((char_lt_iff_toNat a b).mp h))
              subst hab
              simp only [strLtList, h1, if_false, h2, if_false]
              rw [ih bs]
              constructor
              · intro h3
                exact List.Lex.cons h3
              · intro h3
                cases h3 with
                | rel hcon => exact absurd ((char_lt_iff_toNat a a).mp hcon) h1
                | cons htail => exact htail

theorem pyStrLt_iff (a b : String) : pyStrLt a b = true ↔ a < b := by
  rw [String.lt_iff_toList_lt]
  exact strLtList_iff a.data b.data

theorem pyStrLe_iff (a b : String) : pyStrLe a b = true ↔ a ≤ b := by
  rw [le_iff_lt_or_eq]
  simp only [pyStrLe, Bool.or_eq_true, pyStrLt_iff, beq_iff_eq]

theorem leRepl_iff (a b : Int × Int × String) :
    leRepl a b = true ↔
      a.1 < b.1 ∨ (a.1 = b.1 ∧ (a.2.1 < b.2.1 ∨ (a.2.1 = b.2.1 ∧ a.2.2 ≤ b.2.2))) := by
  rw [leRepl]
  by_cases h1 : a.1 = b.1
  · rw [if_pos h1]
    by_cases h2 : a.2.1 = b.2.1
    · rw [if_pos h2]
      rw [pyStrLe_iff]
      constructor
      · intro h; exact Or.inr ⟨h1, Or.inr ⟨h2, h⟩⟩
      · rintro (hlt | ⟨_, hlt | ⟨_, hle⟩⟩)
        · exact absurd h1 (ne_of_lt hlt)
        · exact absurd h2 (ne_of_lt hlt)
        · exact hle
    · rw [if_neg h2]
      simp only [decide_eq_true_eq]
      constructor
      · intro h; exact Or.inr ⟨h1, Or.inl h⟩
      · rintro (hlt | ⟨_, hlt | ⟨heq, _⟩⟩)
        · exact absurd h1 (ne_of_lt hlt)
        · exact hlt
        · exact absurd heq h2
  · rw [if_neg h1]
    simp only [decide_eq_true_eq]
    constructor
    · intro h; exact Or.inl h
    · rintro (hlt | ⟨heq, _⟩)
      · exact hlt
      · exact absurd heq h1

theorem leNum_iff (a b : Int × Int × String × String) :
    leNum a b = true ↔
      a.1 < b.1 ∨ (a.1 = b.1 ∧ (a.2.1 < b.2.1 ∨ (a.2.1 = b.2.1 ∧
        (a.2.2.1 < b.2.2.1 ∨ (a.2.2.1 = b.2.2.1 ∧ a.2.2.2 ≤ b.2.2.2))))) := by
  rw [leNum]
  by_cases h1 : a.1 = b.1
  · rw [if_pos h1]
    by_cases h2 : a.2.1 = b.2.1
    · rw [if_pos h2]
      by_cases h3 : a.2.2.1 = b.2.2.1
      · rw [if_pos h3, pyStrLe_iff]
        constructor
        · intro h; exact Or.inr ⟨h1, Or.inr ⟨h2, Or.inr ⟨h3, h⟩⟩⟩
        · rintro (hlt | ⟨_, hlt | ⟨_, hlt | ⟨_, hle⟩⟩⟩)
          · exact absurd h1 (ne_of_lt hlt)
          · exact absurd h2 (ne_of_lt hlt)
          · exact absurd h3 (ne_of_lt hlt)
          · exact hle
      · rw [if_neg h3, pyStrLt_iff]
        constructor
        · intro h; exact Or.inr ⟨h1, Or.inr ⟨h2, Or.inl h⟩⟩
        · rintro (hlt | ⟨_, hlt | ⟨_, hlt | ⟨heq, _⟩⟩⟩)
          · exact absurd h1 (ne_of_lt hlt)
          · exact absurd h2 (ne_of_lt hlt)
          · exact hlt
          · exact absurd heq h3
    · rw [if_neg h2]
      simp only [decide_eq_true_eq]
      constructor
      · intro h; exact Or.inr ⟨h1, Or.inl h⟩
      · rintro (hlt | ⟨_, hlt | ⟨heq, _⟩⟩)
        · exact absurd h1 (ne_of_lt hlt)
        · exact hlt
        · exact absurd heq h2
  · rw [if_neg h1]
    simp only [decide_eq_true_eq]
    constructor
    · intro h; exact Or.inl h
    · rintro (hlt | ⟨heq, _⟩)
      · exact hlt
      · exact absurd heq h1

instance : IsTrans (Int × Int × String) replLe := by
  constructor
  intro a b c hab hbc
  rw [replLe, leRepl_iff] at hab hbc ⊢
  rcases hab with h1 | ⟨e1, g1 | ⟨f1, s1⟩⟩ <;>
    rcases hbc with h2 | ⟨e2, g2 | ⟨f2, s2⟩⟩
  · exact Or.inl (by omega)
  · exact Or.inl (by omega)
  · exact Or.inl (by omega)
  · exact Or.inl (by omega)
  · exact Or.inr ⟨by omega, Or.inl (by omega)⟩
  · exact Or.inr ⟨by omega, Or.inl (by omega)⟩
  · exact Or.inl (by omega)
  · exact Or.inr ⟨by omega, Or.inl (by omega)⟩
  · exact Or.inr ⟨by omega, Or.inr ⟨by omega, le_trans s1 s2⟩⟩

instance : IsTotal (Int × Int × String) replLe := by
  constructor
  intro a b
  rw [replLe, replLe, leRepl_iff, leRepl_iff]
  rcases lt_trichotomy a.1 b.1 with h1 | h1 | h1
  · exact Or.inl (Or.inl h1)
  · rcases lt_trichotomy a.2.1 b.2.1 with h2 | h2 | h2
    · exact Or.inl (Or.inr ⟨h1, Or.inl h2⟩)
    · rcases le_total a.2.2 b.2.2 with h3 | h3
      · exact Or.inl (Or.inr ⟨h1, Or.inr ⟨h2, h3⟩⟩)
      · exact Or.inr (Or.inr ⟨h1.symm, Or.inr ⟨h2.symm, h3⟩⟩)
    · exact Or.inr (Or.inr ⟨h1.symm, Or.inl h2⟩)
  · exact Or.inr (Or.inl h1)

instance : IsTrans (Int × Int × String × String) numGe := by
  constructor
  intro a b c hab hbc
  rw [numGe, leNum_iff] at hab hbc ⊢
  rcases hbc with h1 | ⟨e1, g1 | ⟨f1, t1 | ⟨u1, s1⟩⟩⟩ <;>
    rcases hab with h2 | ⟨e2, g2 | ⟨f2, t2 | ⟨u2, s2⟩⟩⟩
  · exact Or.inl (by omega)
  · exact Or.inl (by omega)
  · exact Or.inl (by omega)
  · exact Or.inl (by omega)
  · exact Or.inl (by omega)
  · exact Or.inr ⟨by omega, Or.inl (by omega)⟩
  · exact Or.inr ⟨by omega, Or.inl (by omega)⟩
  · exact Or.inr ⟨by omega, Or.inl (by omega)⟩
  · exact Or.inl (by omega)
  · exact Or.inr ⟨by omega, Or.inl (by omega)⟩
  · exact Or.inr ⟨by omega, Or.inr ⟨by omega, Or.inl (lt_trans t1 t2)⟩⟩
  · exact Or.inr ⟨by omega, Or.inr ⟨by omega, Or.inl (lt_of_lt_of_le t1 (le_of_eq u2))⟩⟩
  · exact Or.inl (by omega)
  · exact Or.inr ⟨by omega, Or.inl (by omega)⟩
  · exact Or.inr ⟨by omega, Or.inr ⟨by omega, Or.inl (lt_of_le_of_lt (le_of_eq u1) t2)⟩⟩
  · exact Or.inr ⟨by omega, Or.inr ⟨by omega, Or.inr ⟨u1.trans u2, le_trans s1 s2⟩⟩⟩

instance : IsTotal (Int × Int × String × String) numGe := by
  constructor
  intro a b
  rw [numGe, numGe, leNum_iff, leNum_iff]
  rcases lt_trichotomy a.1 b.1 with h1 | h1 | h1
  · exact Or.inr (Or.inl h1)
  · rcases lt_trichotomy a.2.1 b.2.1 with h2 | h2 | h2
    · exact Or.inr (Or.inr ⟨h1, Or.inl h2⟩)
    · rcases lt_trichotomy a.2.2.1 b.2.2.1 with h3 | h3 | h3
      · exact Or.inr (Or.inr ⟨h1, Or.inr ⟨h2, Or.inl h3⟩⟩)
      · rcases le_total a.2.2.2 b.2.2.2 with h4 | h4
        · exact Or.inr (Or.inr ⟨h1, Or.inr ⟨h2, Or.inr ⟨h3, h4⟩⟩⟩)
        · exact Or.inl (Or.inr ⟨h1.symm, Or.inr ⟨h2.symm, Or.inr ⟨h3.symm, h4⟩⟩⟩)
      · exact Or.inl (Or.inr ⟨h1.symm, Or.inr ⟨h2.symm, Or.inl h3⟩⟩)
    · exact Or.inl (Or.inr ⟨h1.symm, Or.inl h2⟩)
  · exact Or.inl (Or.inl h1)


theorem mem_collectRepls_valid (byteLen : Nat) (facets : List Facet)
    (r : Int × Int × String) (hr : r ∈ collectRepls byteLen facets) :
    validSpan byteLen r := by
  rw [collectRepls, List.mem_filterMap] at hr
  obtain ⟨f, _, hf⟩ := hr
  rw [facetRepl] at hf
  cases hidx : f.index with
  | none =>
      simp only [hidx] at hf
      cases hf
  | some index =>
      simp only [hidx] at hf
      cases h1 : pyOrInt index.byteStart index.byte_start with
      | none =>
          simp only [h1] at hf
          cases hf
      | some s =>
          cases h2 : pyOrInt index.byteEnd index.byte_end with
          | none =>
              simp only [h1, h2] at hf
              cases hf
          | some e =>
              simp only [h1, h2] at hf
              by_cases h3 : s < 0 ∨ e > (byteLen : Int) ∨ s ≥ e
              · rw [if_pos h3] at hf
                cases hf
              · rw [if_neg h3] at hf
                cases h4 : (f.features.find? isLinkFeature).bind (fun ft => ft.uri) with
                | none =>
                    simp only [h4] at hf
                    cases hf
                | some u =>
                    simp only [h4] at hf
                    injection hf with hf
                    subst hf
                    rw [validSpan]
                    push_neg at h3
                    exact ⟨h3.1, h3.2.2, h3.2.1⟩

theorem labelFrom_map_triple :
    ∀ (i : Nat) (l : List (Int × Int × String)),
      (labelFrom i l).map (fun r => (r.1, r.2.1, r.2.2.1)) = l := by
  intro i l
  induction l generalizing i with
  | nil => rfl
  | cons r rest ih => simp [labelFrom, ih]

theorem labelFrom_length (i : Nat) (l : List (Int × Int × String)) :
    (labelFrom i l).length = l.length := by
  have h := congrArg List.length (labelFrom_map_triple i l)
  simpa using h

theorem labelFrom_labels :
    ∀ (i : Nat) (l : List (Int × Int × String)),
      (labelFrom i l).map (fun r => r.2.2.2) =
        (List.range' i l.length).map (fun n => "link" ++ toString n) := by
  intro i l
  induction l generalizing i with
  | nil => rfl
  | cons r rest ih =>
      simp only [labelFrom, List.map_cons, List.length_cons, List.range'_succ,
        ih (i + 1)]

theorem labelFrom_pairwise (R : Int → Int → Int → Int → Prop)
    (i : Nat) (l : List (Int × Int × String))
    (h : l.Pairwise (fun a b => R a.1 a.2.1 b.1 b.2.1)) :
    (labelFrom i l).Pairwise (fun a b => R a.1 a.2.1 b.1 b.2.1) := by
  induction l generalizing i with
  | nil => exact List.Pairwise.nil
  | cons r rest ih =>
      rcases h with _ | ⟨hr, hrest⟩
      refine List.Pairwise.cons ?_ (ih (i + 1) hrest)
      intro b hb
      have hmem : (b.1, b.2.1, b.2.2.1) ∈ rest := by
        rw [← labelFrom_map_triple (i + 1) rest]
        exact List.mem_map_of_mem _ hb
      have := hr (b.1, b.2.1, b.2.2.1) hmem
      exact this

theorem labelFrom_mem_triple (i : Nat) (l : List (Int × Int × String))
    (r : Int × Int × String × String) (hr : r ∈ labelFrom i l) :
    (r.1, r.2.1, r.2.2.1) ∈ l := by
  rw [← labelFrom_map_triple i l]
  exact List.mem_map_of_mem _ hr

theorem sorted_asc_chain (byteLen : Nat) (facets : List Facet)
    (hdisj : (collectRepls byteLen facets).Pairwise spansDisjoint) :
    ((collectRepls byteLen facets).insertionSort replLe).Pairwise
      (fun a b => a.1 < b.1 ∧ a.2.1 ≤ b.1) := by
  have hsorted : ((collectRepls byteLen facets).insertionSort replLe).Pairwise replLe :=
    List.sorted_insertionSort replLe (collectRepls byteLen facets)
  have hperm : ((collectRepls byteLen facets).insertionSort replLe).Perm
      (collectRepls byteLen facets) :=
    List.perm_insertionSort replLe (collectRepls byteLen facets)
  have hdisj2 : ((collectRepls byteLen facets).insertionSort replLe).Pairwise spansDisjoint :=
    hdisj.perm hperm.symm (fun hab => Or.symm hab)
  refine (hsorted.and hdisj2).imp_of_mem ?_
  intro a b ha hb hab
  have hva : validSpan byteLen a := mem_collectRepls_valid byteLen facets a (hperm.subset ha)
  have hvb : validSpan byteLen b := mem_collectRepls_valid byteLen facets b (hperm.subset hb)
  obtain ⟨hle, hdis⟩ := hab
  rw [replLe, leRepl_iff] at hle
  rw [validSpan] at hva hvb
  rw [spansDisjoint] at hdis
  rcases hle with h1 | ⟨e1, _⟩ <;> rcases hdis with h2 | h2 <;>
    exact ⟨by omega, by omega⟩

theorem insertionSort_numGe_eq_reverse (l : List (Int × Int × String × String))
    (h : l.Pairwise (fun a b => a.1 < b.1)) :
    l.insertionSort numGe = l.reverse := by
  have hsorted : (l.insertionSort numGe).Pairwise numGe :=
    List.sorted_insertionSort numGe l
  have hperm : (l.insertionSort numGe).Perm l := List.perm_insertionSort numGe l
  have hne : l.Pairwise (fun a b => a.1 ≠ b.1) := h.imp (fun hab => ne_of_lt hab)
  have hne2 : (l.insertionSort numGe).Pairwise (fun a b => a.1 ≠ b.1) :=
    hne.perm hperm.symm (fun hab => Ne.symm hab)
  have hstrict : (l.insertionSort numGe).Pairwise (fun a b => b.1 < a.1) := by
    refine (hsorted.and hne2).imp ?_
    rintro a b ⟨hge, hne3⟩
    rw [numGe, leNum_iff] at hge
    rcases hge with h1 | ⟨e1, _⟩
    · exact h1
    · exact absurd e1.symm hne3
  have hrev : l.reverse.Pairwise (fun a b => b.1 < a.1) := by
    rw [List.pairwise_reverse]
    exact h
  haveI : IsAntisymm (Int × Int × String × String) (fun a b => b.1 < a.1) :=
    ⟨fun a b h1 h2 => absurd h1 (by omega)⟩
  exact List.eq_of_perm_of_sorted (hperm.trans l.reverse_perm.symm) hstrict hrev

theorem specReplaceFrom_take (bt : List Nat) (k : Nat)
    (l : List (Nat × Nat × String × String))
    (hl : ∀ r ∈ l, k ≤ r.1) (hk : k ≤ bt.length) :
    (specReplaceFrom bt 0 l).take k = bt.take k := by
  cases l with
  | nil => simp [specReplaceFrom]
  | cons r rest =>
      have hs : k ≤ r.1 := hl r (by simp)
      simp only [specReplaceFrom, List.drop_zero, Nat.sub_zero]
      have h0 : k - (bt.take r.1).length = 0 := by
        simp only [List.length_take]
        omega
      have h1 : k - (bt.take r.1 ++ linkMarkdownBytes r.2.2.2 r.2.2.1).length = 0 := by
        simp only [List.length_append, List.length_take]
        omega
      rw [List.take_append_eq_append_take, h1, List.take_zero, List.append_nil]
      rw [List.take_append_eq_append_take, h0, List.take_zero, List.append_nil]
      rw [List.take_take, min_eq_left hs]

theorem specReplaceFrom_drop (bt : List Nat) (k : Nat)
    (l : List (Nat × Nat × String × String))
    (hl : ∀ r ∈ l, k ≤ r.1) (hk : k ≤ bt.length) :
    (specReplaceFrom bt 0 l).drop k = specReplaceFrom bt k l := by
  cases l with
  | nil => simp [specReplaceFrom]
  | cons r rest =>
      have hs : k ≤ r.1 := hl r (by simp)
      simp only [specReplaceFrom, List.drop_zero, Nat.sub_zero]
      have h0 : k - (bt.take r.1).length = 0 := by
        simp only [List.length_take]
        omega
      have h1 : k - (bt.take r.1 ++ linkMarkdownBytes r.2.2.2 r.2.2.1).length = 0 := by
        simp only [List.length_append, List.length_take]
        omega
      rw [List.drop_append_eq_append_drop, h1, List.drop_zero]
      rw [List.drop_append_eq_append_drop, h0, List.drop_zero]
      rw [List.drop_take]

theorem foldr_splice_eq_spec (bt : List Nat) :
    ∀ (l : List (Int × Int × String × String)),
      l.Pairwise (fun a b => a.1 < b.1 ∧ a.2.1 ≤ b.1) →
      (∀ r ∈ l, 0 ≤ r.1 ∧ r.1 < r.2.1 ∧ r.2.1 ≤ (bt.length : Int)) →
      List.foldr
        (fun r acc =>
          acc.take r.1.toNat ++ linkMarkdownBytes r.2.2.2 r.2.2.1 ++ acc.drop r.2.1.toNat)
        bt l =
        specReplaceFrom bt 0 (natSpans l) := by
  intro l
  induction l with
  | nil => intro _ _; simp [specReplaceFrom, natSpans]
  | cons r rest ih =>
      intro hpair hvalid
      rcases hpair with _ | ⟨hr, hrest⟩
      have hv : 0 ≤ r.1 ∧ r.1 < r.2.1 ∧ r.2.1 ≤ (bt.length : Int) := hvalid r (by simp)
      have hspec := ih hrest (fun x hx => hvalid x (by simp [hx]))
      simp only [List.foldr_cons, hspec]
      have htake : (specReplaceFrom bt 0 (natSpans rest)).take r.1.toNat =
          bt.take r.1.toNat := by
        refine specReplaceFrom_take bt r.1.toNat (natSpans rest) ?_ ?_
        · intro x hx
          rw [natSpans, List.mem_map] at hx
          obtain ⟨y, hy, rfl⟩ := hx
          have h2 := hr y hy
          simp only
          omega
        · omega
      have hdrop : (specReplaceFrom bt 0 (natSpans rest)).drop r.2.1.toNat =
          specReplaceFrom bt r.2.1.toNat (natSpans rest) := by
        refine specReplaceFrom_drop bt r.2.1.toNat (natSpans rest) ?_ ?_
        · intro x hx
          rw [natSpans, List.mem_map] at hx
          obtain ⟨y, hy, rfl⟩ := hx
          have h2 := hr y hy
          simp only
          omega
        · omega
      rw [htake, hdrop]
      simp [natSpans, specReplaceFrom]


/-- C2 (amended): when the replacement spans the code extracts (valid
spans whose byte offsets resolve under the falsy-or key lookup) are
pairwise non-overlapping, the rewritten byte text is exactly the input
with each such span replaced by its numbered markdown link, the spans
being numbered link1, link2, ... by ascending start offset. -/
theorem claim_C2 (bt : List Nat) (facets : List Facet)
    (hdisj : (collectRepls bt.length facets).Pairwise spansDisjoint) :
    (numberedSpans bt facets).Pairwise (fun a b => a.1 < b.1) ∧
    (numberedSpans bt facets).map (fun r => r.2.2.2) =
      (List.range' 1 (collectRepls bt.length facets).length).map
        (fun n => "link" ++ toString n) ∧
    applyLinkFacetsBytes bt facets =
      specReplaceFrom bt 0 (natSpans (numberedSpans bt facets)) := by
  have hchain := sorted_asc_chain bt.length facets hdisj
  have hnum : (numberedSpans bt facets).Pairwise
      (fun a b => a.1 < b.1 ∧ a.2.1 ≤ b.1) :=
    labelFrom_pairwise (fun x y z _ => x < z ∧ y ≤ z) 1 _ hchain
  have hvalid : ∀ r ∈ numberedSpans bt facets,
      0 ≤ r.1 ∧ r.1 < r.2.1 ∧ r.2.1 ≤ (bt.length : Int) := by
    intro r hrm
    have htr := labelFrom_mem_triple 1 _ r hrm
    have hmem : (r.1, r.2.1, r.2.2.1) ∈ collectRepls bt.length facets :=
      (List.perm_insertionSort replLe _).subset htr
    have hval := mem_collectRepls_valid bt.length facets _ hmem
    rw [validSpan] at hval
    exact hval
  refine ⟨hnum.imp (fun h => h.1), ?_, ?_⟩
  · rw [numberedSpans, labelFrom_labels]
    rw [(List.perm_insertionSort replLe (collectRepls bt.length facets)).length_eq]
  · simp only [applyLinkFacetsBytes]
    by_cases hbf : bt = [] ∨ facets = []
    · rw [if_pos hbf]
      have hcr : collectRepls bt.length facets = [] := by
        rcases hbf with rfl | rfl
        · rw [List.eq_nil_iff_forall_not_mem]
          intro r hrm
          have hval := mem_collectRepls_valid _ _ r hrm
          rw [validSpan] at hval
          simp only [List.length_nil, Nat.cast_zero] at hval
          omega
        · rfl
      rw [show numberedSpans bt facets = [] by rw [numberedSpans, hcr]; rfl]
      simp [specReplaceFrom, natSpans]
    · rw [if_neg hbf]
      have hrev : (numberedSpans bt facets).insertionSort numGe =
          (numberedSpans bt facets).reverse :=
        insertionSort_numGe_eq_reverse _ (hnum.imp (fun h => h.1))
      rw [show labelFrom 1 ((collectRepls bt.length facets).insertionSort replLe) =
            numberedSpans bt facets from rfl]
      rw [hrev, spliceAll, List.foldl_reverse]
      exact foldr_splice_eq_spec bt (numberedSpans bt facets) hnum hvalid

/-- Counterexample for C2 as stated: the facet of claim C8 carries the
valid in-range link span [0, 2) over the two-byte text, yet the output
leaves the text unchanged instead of rewriting the span. -/
theorem counterexample_C2 :
    _apply_link_facets "ab" [facetC8] = "ab" ∧ "ab" ≠ "[link1](http://x)" :=
  ⟨by rfl, by decide⟩


/-- Witness for C2 at a concrete text and facet. -/
theorem witness_C2 :
    (collectRepls (utf8Encode "Hi x").length [facetW]).Pairwise spansDisjoint ∧
    applyLinkFacetsBytes (utf8Encode "Hi x") [facetW] =
      specReplaceFrom (utf8Encode "Hi x") 0
        (natSpans (numberedSpans (utf8Encode "Hi x") [facetW])) :=
  ⟨by rw [show collectRepls (utf8Encode "Hi x").length [facetW] = [(3, 4, "u")] from rfl]
      exact List.pairwise_singleton spansDisjoint (3, 4, "u"),
   (claim_C2 (utf8Encode "Hi x") [facetW]
      (by rw [show collectRepls (utf8Encode "Hi x").length [facetW] = [(3, 4, "u")] from rfl]
          exact List.pairwise_singleton spansDisjoint (3, 4, "u"))).2.2⟩

/-! ### Thread consolidation (claim C1) -/


theorem dictInsert_mem {α : Type} (d : List (String × α)) (k : String) (v : α) :
    ∀ e ∈ dictInsert d k v, e = (k, v) ∨ e ∈ d := by
  induction d with
  | nil => intro e he; simpa [dictInsert] using he
  | cons kv rest ih =>
      intro e he
      rw [dictInsert] at he
      by_cases hk : kv.1 = k
      · rw [if_pos hk] at he
        rcases List.mem_cons.mp he with rfl | he1
        · exact Or.inl rfl
        · exact Or.inr (List.mem_cons_of_mem kv he1)
      · rw [if_neg hk] at he
        rcases List.mem_cons.mp he with rfl | he1
        · exact Or.inr (List.mem_cons_self kv rest)
        · rcases ih e he1 with h | h
          · exact Or.inl h
          · exact Or.inr (List.mem_cons_of_mem kv h)

theorem dictGet_mem {α : Type} (d : List (String × α)) (k : String) (v : α)
    (h : dictGet d k = some v) : (k, v) ∈ d := by
  rw [dictGet] at h
  cases hf : d.find? (fun p => p.1 == k) with
  | none => rw [hf] at h; cases h
  | some e =>
      rw [hf] at h
      injection h with h
      have hk : e.1 = k := by
        have := List.find?_some hf
        simpa [beq_iff_eq] using this
      have hmem := List.mem_of_find?_eq_some hf
      have : e = (k, v) := by
        rcases e with ⟨e1, e2⟩
        simp only at hk h
        rw [hk, h]
      rw [← this]
      exact hmem

theorem dictGet_dictInsert_self {α : Type} (d : List (String × α)) (k : String) (v : α) :
    dictGet (dictInsert d k v) k = some v := by
  induction d with
  | nil => simp [dictInsert, dictGet, List.find?]
  | cons kv rest ih =>
      rw [dictInsert]
      by_cases hk : kv.1 = k
      · rw [if_pos hk]
        simp [dictGet, List.find?]
      · rw [if_neg hk]
        rw [dictGet, List.find?]
        have : (kv.1 == k) = false := by simpa using hk
        rw [this]
        exact ih

theorem dictGet_dictInsert_other {α : Type} (d : List (String × α)) (k k2 : String)
    (v : α) (hne : k2 ≠ k) : dictGet (dictInsert d k v) k2 = dictGet d k2 := by
  induction d with
  | nil =>
      simp only [dictInsert, dictGet, List.find?]
      have : (k == k2) = false := by simpa using (fun h => hne h.symm)
      rw [this]
  | cons kv rest ih =>
      rw [dictInsert]
      by_cases hk : kv.1 = k
      · rw [if_pos hk]
        simp only [dictGet, List.find?]
        have h1 : (k == k2) = false := by simpa using (fun h => hne h.symm)
        have h2 : (kv.1 == k2) = false := by
          simp only [beq_eq_false_iff_ne]
          rw [hk]
          exact fun h => hne h.symm
        rw [h1, h2]
      · rw [if_neg hk]
        simp only [dictGet, List.find?] at ih ⊢
        cases hkv : (kv.1 == k2) with
        | true => rfl
        | false => exact ih

theorem postsByUri_entries (posts : List FeedItem) :
    ∀ e ∈ postsByUri posts, pyStrVal e.2.post.uri = some e.1 ∧ e.2 ∈ posts := by
  have key : ∀ (l : List FeedItem) (acc : List (String × FeedItem)),
      (∀ x ∈ l, x ∈ posts) →
      (∀ e ∈ acc, pyStrVal e.2.post.uri = some e.1 ∧ e.2 ∈ posts) →
      ∀ e ∈ l.foldl
        (fun d p =>
          match pyStrVal p.post.uri with
          | some u => dictInsert d u p
          | none => d) acc,
        pyStrVal e.2.post.uri = some e.1 ∧ e.2 ∈ posts := by
    intro l
    induction l with
    | nil => intro acc _ hacc e he; exact hacc e he
    | cons p rest ih =>
        intro acc hsub hacc e he
        rw [List.foldl_cons] at he
        refine ih _ (fun x hx => hsub x (by simp [hx])) ?_ e he
        intro e2 he2
        cases hu : pyStrVal p.post.uri with
        | none =>
            rw [hu] at he2
            exact hacc e2 he2
        | some u =>
            rw [hu] at he2
            rcases dictInsert_mem acc u p e2 he2 with rfl | h
            · exact ⟨hu, hsub p (by simp)⟩
            · exact hacc e2 h
  intro e he
  exact key posts [] (fun x hx => hx) (by intro e2 he2; cases he2) e he

theorem postsByUri_key_present (posts : List FeedItem) (p : FeedItem) (u : String)
    (hp : p ∈ posts) (hu : pyStrVal p.post.uri = some u) :
    (dictGet (postsByUri posts) u).isSome := by
  have key : ∀ (l : List FeedItem) (acc : List (String × FeedItem)),
      ((∃ q ∈ l, pyStrVal q.post.uri = some u) ∨ (dictGet acc u).isSome) →
      (dictGet (l.foldl
        (fun d p2 =>
          match pyStrVal p2.post.uri with
          | some v => dictInsert d v p2
          | none => d) acc) u).isSome := by
    intro l
    induction l with
    | nil =>
        intro acc h
        rcases h with ⟨q, hq, _⟩ | h
        · cases hq
        · exact h
    | cons q rest ih =>
        intro acc h
        rw [List.foldl_cons]
        cases hv : pyStrVal q.post.uri with
        | none =>
            refine ih acc ?_
            rcases h with ⟨q2, hq2, hu2⟩ | h
            · rcases List.mem_cons.mp hq2 with rfl | hq3
              · rw [hv] at hu2; cases hu2
              · exact Or.inl ⟨q2, hq3, hu2⟩
            · exact Or.inr h
        | some v =>
            refine ih (dictInsert acc v q) ?_
            by_cases hvu : v = u
            · subst hvu
              exact Or.inr (by rw [dictGet_dictInsert_self]; rfl)
            · rcases h with ⟨q2, hq2, hu2⟩ | h
              · rcases List.mem_cons.mp hq2 with rfl | hq3
                · rw [hv] at hu2
                  injection hu2 with hu3
                  exact absurd hu3 hvu
                · exact Or.inl ⟨q2, hq3, hu2⟩
              · exact Or.inr (by
                  rw [dictGet_dictInsert_other acc v u q (fun h2 => hvu h2.symm)]
                  exact h)
  exact key posts [] (Or.inl ⟨p, hp, hu⟩)

theorem parentMap_entries (posts : List FeedItem) (pbu : List (String × FeedItem)) :
    ∀ e ∈ parentMap posts pbu,
      ∃ p ∈ posts, pyStrVal p.post.uri = some e.1 ∧
        ∃ pp, dictGet pbu e.2 = some pp ∧
          _get_author_identifier pp = _get_author_identifier p := by
  have key : ∀ (l : List FeedItem) (acc : List (String × String)),
      (∀ x ∈ l, x ∈ posts) →
      (∀ e ∈ acc, ∃ p ∈ posts, pyStrVal p.post.uri = some e.1 ∧
        ∃ pp, dictGet pbu e.2 = some pp ∧
          _get_author_identifier pp = _get_author_identifier p) →
      ∀ e ∈ l.foldl
        (fun d p =>
          match pyStrVal p.post.uri with
          | none => d
          | some u =>
              match _extract_reply_parent_uri p.post.record with
              | none => d
              | some pu =>
                  match dictGet pbu pu with
                  | none => d
                  | some parentPost =>
                      if _get_author_identifier parentPost = _get_author_identifier p
                      then dictInsert d u pu
                      else d) acc,
        ∃ p ∈ posts, pyStrVal p.post.uri = some e.1 ∧
          ∃ pp, dictGet pbu e.2 = some pp ∧
            _get_author_identifier pp = _get_author_identifier p := by
    intro l
    induction l with
    | nil => intro acc _ hacc e he; exact hacc e he
    | cons p rest ih =>
        intro acc hsub hacc e he
        rw [List.foldl_cons] at he
        refine ih _ (fun x hx => hsub x (by simp [hx])) ?_ e he
        intro e2 he2
        cases hu : pyStrVal p.post.uri with
        | none => simp only [hu] at he2; exact hacc e2 he2
        | some u =>
            simp only [hu] at he2
            cases hpu : _extract_reply_parent_uri p.post.record with
            | none => simp only [hpu] at he2; exact hacc e2 he2
            | some pu =>
                simp only [hpu] at he2
                cases hpp : dictGet pbu pu with
                | none => simp only [hpp] at he2; exact hacc e2 he2
                | some parentPost =>
                    simp only [hpp] at he2
                    by_cases hauth :
                        _get_author_identifier parentPost = _get_author_identifier p
                    · rw [if_pos hauth] at he2
                      rcases dictInsert_mem acc u pu e2 he2 with rfl | h2
                      · exact ⟨p, hsub p (by simp), hu, parentPost, hpp, hauth⟩
                      · exact hacc e2 h2
                    · rw [if_neg hauth] at he2
                      exact hacc e2 he2
  intro e he
  exact key posts [] (fun x hx => hx) (by intro e2 he2; cases he2) e he

theorem buildChain_mem (pbu : List (String × FeedItem)) (pm : List (String × String)) :
    ∀ (fuel : Nat) (cur : Option String) (p : FeedItem),
      p ∈ buildChain pbu pm fuel cur →
      ∃ k, dictGet pbu k = some p := by
  intro fuel
  induction fuel with
  | zero =>
      intro cur p hp
      cases cur with
      | none => cases hp
      | some u => cases hp
  | succ n ih =>
      intro cur p hp
      cases cur with
      | none => cases hp
      | some u =>
          rw [buildChain] at hp
          cases hq : dictGet pbu u with
          | none => rw [hq] at hp; cases hp
          | some q =>
              rw [hq] at hp
              rcases List.mem_cons.mp hp with rfl | hp2
              · exact ⟨u, hq⟩
              · exact ih _ p hp2

theorem buildChain_authors (pbu : List (String × FeedItem)) (pm : List (String × String))
    (Hedge : ∀ e ∈ pm, ∀ pc, dictGet pbu e.1 = some pc →
      ∀ pp, dictGet pbu e.2 = some pp →
      _get_author_identifier pc = _get_author_identifier pp) :
    ∀ (fuel : Nat) (u : String) (q : FeedItem), dictGet pbu u = some q →
      ∀ p ∈ buildChain pbu pm fuel (some u),
        _get_author_identifier p = _get_author_identifier q := by
  intro fuel
  induction fuel with
  | zero => intro u q _ p hp; cases hp
  | succ n ih =>
      intro u q hq p hp
      rw [buildChain, hq] at hp
      rcases List.mem_cons.mp hp with rfl | hp2
      · rfl
      · cases hnext : pyStrVal (dictGet pm u) with
        | none => rw [hnext] at hp2; cases n <;> cases hp2
        | some v =>
            rw [hnext] at hp2
            cases n with
            | zero => cases hp2
            | succ m =>
                cases hq2 : dictGet pbu v with
                | none =>
                    rw [buildChain] at hp2
                    simp only [hq2] at hp2
                    cases hp2
                | some q2 =>
                    have hall := ih v q2 hq2 p hp2
                    have hedge : (u, v) ∈ pm := by
                      cases hpm : dictGet pm u with
                      | none => rw [hpm] at hnext; cases hnext
                      | some v0 =>
                          rw [hpm] at hnext
                          have hv0 : v0 = v := by
                            rw [pyStrVal] at hnext
                            by_cases h0 : v0 = ""
                            · rw [if_pos h0] at hnext; cases hnext
                            · rw [if_neg h0] at hnext
                              injection hnext
                          rw [← hv0]
                          exact dictGet_mem pm u v0 hpm
                    have := Hedge (u, v) hedge q hq q2 hq2
                    rw [hall, ← this]

theorem pyStrVal_eq_some (o : Option String) (k : String) :
    pyStrVal o = some k ↔ o = some k ∧ k ≠ "" := by
  cases o with
  | none => simp [pyStrVal]
  | some s =>
      rw [pyStrVal]
      by_cases hs : s = ""
      · rw [if_pos hs]
        constructor
        · intro h; cases h
        · rintro ⟨h, hne⟩
          injection h with h2
          exact absurd (by rw [← h2, hs]) hne
      · rw [if_neg hs]
        constructor
        · intro h
          injection h with h2
          exact ⟨by rw [h2], by rw [← h2]; exact hs⟩
        · rintro ⟨h, _⟩
          injection h with h2
          rw [h2]

theorem edge_authors (posts : List FeedItem) (H : authorsConsistent posts) :
    ∀ e ∈ parentMap posts (postsByUri posts),
      ∀ pc, dictGet (postsByUri posts) e.1 = some pc →
      ∀ pp, dictGet (postsByUri posts) e.2 = some pp →
      _get_author_identifier pc = _get_author_identifier pp := by
  intro e he pc hpc pp hpp
  obtain ⟨p, hpmem, hpuri, pp2, hpp2, hauth⟩ := parentMap_entries posts _ e he
  rw [hpp] at hpp2
  injection hpp2 with heq
  subst heq
  have hpcfacts := postsByUri_entries posts (e.1, pc) (dictGet_mem _ _ _ hpc)
  have hpceq : _get_author_identifier pc = _get_author_identifier p :=
    H pc hpcfacts.2 p hpmem e.1 hpcfacts.1 hpuri
  exact hpceq.trans hauth.symm

theorem mem_find_self_threads (posts : List FeedItem) (t : List FeedItem)
    (ht : t ∈ find_self_threads posts) :
    ∃ leaf,
      let chain := buildChain (postsByUri posts) (parentMap posts (postsByUri posts))
        ((parentMap posts (postsByUri posts)).length + 1) (some leaf)
      chain.length > 1 ∧ t = chain.reverse := by
  simp only [find_self_threads, List.mem_filterMap] at ht
  obtain ⟨leaf, _, hres⟩ := ht
  refine ⟨leaf, ?_⟩
  by_cases hlen :
      (buildChain (postsByUri posts) (parentMap posts (postsByUri posts))
        ((parentMap posts (postsByUri posts)).length + 1) (some leaf)).length > 1
  · rw [if_pos hlen] at hres
    injection hres with hres
    exact ⟨hlen, hres.symm⟩
  · rw [if_neg hlen] at hres
    cases hres

theorem find_self_threads_facts (posts : List FeedItem) (H : authorsConsistent posts) :
    ∀ t ∈ find_self_threads posts,
      2 ≤ t.length ∧
      (∀ p ∈ t, ∃ k, dictGet (postsByUri posts) k = some p) ∧
      (∀ p ∈ t, ∀ q ∈ t,
        _get_author_identifier p = _get_author_identifier q) := by
  intro t ht
  obtain ⟨leaf, hlen, hrev⟩ := mem_find_self_threads posts t ht
  have hmemt : ∀ p ∈ t, ∃ k, dictGet (postsByUri posts) k = some p := by
    intro p hp
    rw [hrev] at hp
    rw [List.mem_reverse] at hp
    exact buildChain_mem _ _ _ _ p hp
  refine ⟨by rw [hrev]; simpa using hlen, hmemt, ?_⟩
  -- the chain starts at the leaf value and every element shares its author
  cases hq0 : dictGet (postsByUri posts) leaf with
  | none =>
      exfalso
      rw [buildChain, hq0] at hlen
      simp at hlen
  | some q0 =>
      have hall : ∀ p ∈ t,
          _get_author_identifier p = _get_author_identifier q0 := by
        intro p hp
        rw [hrev, List.mem_reverse] at hp
        exact buildChain_authors (postsByUri posts) (parentMap posts (postsByUri posts))
          (edge_authors posts H) _ leaf q0 hq0 p hp
      intro p hp q hq
      rw [hall p hp, hall q hq]

theorem consolidate_acc (threads : List (List FeedItem)) :
    ∀ acc : List FeedItem,
      threads.foldl
        (fun acc thread =>
          match thread with
          | [] => acc
          | root :: _ => acc ++ [synthPost root thread]) acc =
        acc ++ consolidate_threads_to_posts threads := by
  induction threads with
  | nil => intro acc; simp [consolidate_threads_to_posts]
  | cons t ths ih =>
      intro acc
      rw [consolidate_threads_to_posts, List.foldl_cons, List.foldl_cons, ih, ih]
      cases t with
      | nil => simp
      | cons root rest => simp

theorem consolidate_cons (t : List FeedItem) (threads : List (List FeedItem)) :
    consolidate_threads_to_posts (t :: threads) =
      (match t with
        | [] => []
        | root :: _ => [synthPost root t]) ++ consolidate_threads_to_posts threads := by
  rw [consolidate_threads_to_posts, List.foldl_cons, consolidate_acc]
  cases t with
  | nil => simp
  | cons root rest => simp

theorem consolidate_forall2 (ths : List (List FeedItem))
    (h : ∀ t ∈ ths, ∃ root rest ru,
      t = root :: rest ∧ root.post.uri = some ru ∧ ru ≠ "") :
    List.Forall₂
      (fun t c => ∃ ru, t.head?.bind (fun r => r.post.uri) = some ru ∧ ru ≠ "" ∧
        c.post.uri = some (ru ++ "#thread") ∧
        c.post.record.text = some (String.intercalate "\n\n" (threadBodyParts t)))
      ths (consolidate_threads_to_posts ths) := by
  induction ths with
  | nil =>
      rw [show consolidate_threads_to_posts [] = [] from rfl]
      exact List.Forall₂.nil
  | cons t ths2 ih =>
      obtain ⟨root, rest, ru, rfl, huri, hne⟩ := h t (by simp)
      rw [consolidate_cons]
      simp only [List.singleton_append]
      refine List.Forall₂.cons ?_ (ih (fun t2 ht2 => h t2 (by simp [ht2])))
      refine ⟨ru, ?_, hne, ?_, ?_⟩
      · simp [huri]
      · rw [synthPost]
        simp only [huri, pyOrStr]
        rw [if_neg hne]
      · rfl

/-- C1 (amended): when any two posts sharing a URI agree on the author
identifier, every chain found by find_self_threads has at least two posts
and a single author identifier throughout; consolidate_threads_to_posts
collapses each such chain into exactly one synthetic post whose URI is the
root post's URI suffixed with "#thread" and whose record text is the
"\n\n"-joined stripped per-post texts (empty texts omitted) in chain
order, root first. -/
theorem claim_C1 (posts : List FeedItem) (H : authorsConsistent posts) :
    (∀ t ∈ find_self_threads posts, 2 ≤ t.length ∧
      ∀ p ∈ t, ∀ q ∈ t, _get_author_identifier p = _get_author_identifier q) ∧
    (consolidate_threads_to_posts (find_self_threads posts)).length =
      (find_self_threads posts).length ∧
    List.Forall₂
      (fun t c => ∃ ru, t.head?.bind (fun r => r.post.uri) = some ru ∧ ru ≠ "" ∧
        c.post.uri = some (ru ++ "#thread") ∧
        c.post.record.text = some (String.intercalate "\n\n" (threadBodyParts t)))
      (find_self_threads posts)
      (consolidate_threads_to_posts (find_self_threads posts)) := by
  have hfacts := find_self_threads_facts posts H
  have hroot : ∀ t ∈ find_self_threads posts, ∃ root rest ru,
      t = root :: rest ∧ root.post.uri = some ru ∧ ru ≠ "" := by
    intro t ht
    obtain ⟨hlen, hmem, _⟩ := hfacts t ht
    cases t with
    | nil => simp at hlen
    | cons root rest =>
        obtain ⟨k, hk⟩ := hmem root (by simp)
        have hentry := postsByUri_entries posts (k, root) (dictGet_mem _ _ _ hk)
        obtain ⟨huri, hne⟩ := (pyStrVal_eq_some root.post.uri k).mp hentry.1
        exact ⟨root, rest, k, rfl, huri, hne⟩
  have hf2 := consolidate_forall2 (find_self_threads posts) hroot
  refine ⟨fun t ht => ⟨(hfacts t ht).1, (hfacts t ht).2.2⟩, ?_, hf2⟩
  exact hf2.length_eq.symm


/-- Counterexample for C1 as stated.  First: the consolidated text of the
chain ["a", " b "] is "a\n\nb" — stripped, not the plain "\n\n"-join
"a\n\n b ".  Second: with two posts sharing URI "u" under different
authors, find_self_threads returns a chain whose posts carry different
author identifiers, so cross-author posts are merged. -/
theorem counterexample_C1 :
    ((consolidate_threads_to_posts (find_self_threads [cpostRoot, cpostChild])).map
        (fun c => c.post.record.text) = [some "a\n\nb"] ∧
      "a\n\nb" ≠ "a" ++ "\n\n" ++ " b ") ∧
    (find_self_threads [cpostA1, cpostA2, cpostP] = [[cpostP, cpostA2]] ∧
      _get_author_identifier cpostP ≠ _get_author_identifier cpostA2) :=
  ⟨⟨by rfl, by decide⟩, ⟨by rfl, by decide⟩⟩

/-- Witness for C1 at the concrete two-post thread. -/
theorem witness_C1 :
    authorsConsistent [cpostRoot, cpostChild] ∧
    ∀ t ∈ find_self_threads [cpostRoot, cpostChild], 2 ≤ t.length ∧
      ∀ p ∈ t, ∀ q ∈ t, _get_author_identifier p = _get_author_identifier q := by
  have hcons : authorsConsistent [cpostRoot, cpostChild] := by
    intro p hp q hq u h1 h2
    fin_cases hp <;> fin_cases hq
    · rfl
    · exact absurd (h1.trans h2.symm) (by decide)
    · exact absurd (h1.trans h2.symm) (by decide)
    · rfl
  exact ⟨hcons, (claim_C1 [cpostRoot, cpostChild] hcons).1⟩

end Unhook
